import Mathlib

/-!
Verification of the preview-grid pipeline (`src/grid.ts`).

The development shallowly embeds the cache-reconciliation, grid-composition
and index-aggregation logic of `grid.ts`.  Filesystem paths are modelled as
lists of path segments (`Key`); JavaScript objects (`Record<string, T>`) are
modelled as ordered association lists with JavaScript assignment semantics
(`insertJS`: overwriting an existing key keeps its position, a new key is
appended).  External effects (Deno.stat, sharp metadata decoding, ffprobe,
the unseeded shuffle, directory birthtimes) are oracles bundled in `Env`;
an oracle returning `none` models the corresponding operation throwing.
-/

namespace GridSpec

/-- Pixel dimensions, `{width, height}` in the source's `CacheEntry.size`. -/
structure Size where
  width : Nat
  height : Nat
deriving DecidableEq, Repr

/-- `CacheEntry` from `grid.ts`: `{ fileSize, mtime, size }`. -/
structure CacheEntry where
  fileSize : Nat
  mtime : Int
  size : Size
deriving DecidableEq, Repr

/-- A filesystem path (absolute) or a cache key (relative path), as segments. -/
abbrev Key := List String

/-- `Cache = Record<string, CacheEntry>`: an ordered association list with
unique-key JavaScript-object semantics maintained by `insertJS`. -/
abbrev Cache := List (Key × CacheEntry)

namespace Cache

/-- `cache[k]` read: the first entry with key `k`. -/
def lookup (c : Cache) (k : Key) : Option CacheEntry :=
  (c.find? (fun p => p.1 == k)).map (·.2)

/-- `k in cache` (key present). -/
def hasKey (c : Cache) (k : Key) : Bool :=
  c.any (fun p => p.1 == k)

end Cache

/-- JavaScript assignment `c[k] = v`: replace in place if the key exists,
otherwise append. -/
def insertJS (c : Cache) (k : Key) (v : CacheEntry) : Cache :=
  if Cache.hasKey c k then c.map (fun p => if p.1 == k then (k, v) else p)
  else c ++ [(k, v)]

/-- A scanned media file: `{ absolutePath, relativePath }` as produced by
`scanAllDirectoriesAndFiles` / `collectMediaFilesIteratively`. -/
structure MediaFile where
  absolutePath : Key
  relativePath : Key
deriving DecidableEq, Repr

/-- Oracles for the external world.  `statOf` models `Deno.stat` (size and
`mtime.getTime()`), `none` meaning the stat throws.  `probeOf` models the
dimension probe of `processFile` (sharp metadata for images, ffprobe for
videos), `none` meaning the probe throws before assigning a size; the
`width || 0` defaulting and the missing-stream case are folded into the
oracle's `some` values.  `shuffleOf` models the unseeded random shuffle of
`processMediaFiles`.  `cellOk` models whether decoding+resizing one selected
file into its grid cell succeeds.  `birthOf` models `stat.birthtime`. -/
structure Env where
  statOf : Key → Option (Nat × Int)
  probeOf : Key → Option Size
  shuffleOf : List MediaFile → List MediaFile
  cellOk : Key → Bool
  birthOf : Key → Option Int

/-- The `fileSize`/`mtime` values `processFile` ends up with after its
`try { Deno.stat ... } catch {}` block: the stat values on success, the
`0`/`0` initializers when the stat throws. -/
def statVals (env : Env) (p : Key) : Nat × Int :=
  match env.statOf p with
  | some sm => sm
  | none => (0, 0)

/-- `processFile` from `updateMetadataCache` (grid.ts lines 258-321), as a
function of the cache snapshot it reads (`newCache` still equals
`cleanedCache` while the queued tasks run).  Returns the entry stored for
the file and whether `newFilesCount` was incremented. -/
def processFile (env : Env) (newCache : Cache) (file : MediaFile) : CacheEntry × Bool :=
  let s := statVals env file.absolutePath
  match Cache.lookup newCache file.relativePath with
  | some oldEntry =>
    if oldEntry.fileSize = s.1 ∧ oldEntry.mtime = s.2 then
      ({ fileSize := s.1, mtime := s.2, size := oldEntry.size }, false)
    else
      ({ fileSize := s.1, mtime := s.2, size := (env.probeOf file.absolutePath).getD ⟨0, 0⟩ }, true)
  | none =>
      ({ fileSize := s.1, mtime := s.2, size := (env.probeOf file.absolutePath).getD ⟨0, 0⟩ }, true)

/-- `path.basename` on a segment path. -/
def baseName (p : Key) : String := p.getLast?.getD ""

/-- `` `.${dirName}_pgrid.json` `` -/
def cacheFileName (dirName : String) : String := "." ++ dirName ++ "_pgrid.json"

/-- The cache sidecar path of a directory: `path.join(path.dirname(d),
`.${path.basename(d)}_pgrid.json`)` (grid.ts lines 219-221). -/
def cacheFilePath (directory : Key) : Key :=
  directory.dropLast ++ [cacheFileName (baseName directory)]

/-- The persistent state between runs: the JSON cache sidecar files, keyed by
their full path.  `none` models a missing or unparsable file (both are
treated identically by the `try { readTextFile; JSON.parse } catch` blocks). -/
abbrev FS := Key → Option Cache

/-- One iteration of the `loadChildCaches` loop body: read
`directory/.{basename(child)}_pgrid.json` (a failed read or parse skips the
child) and merge every entry into the working map under the key
`path.join(childName, relativePath)`. -/
def childStep (fs : FS) (directory : Key) (mergedCache : Cache) (childDirPath : Key) : Cache :=
  match fs (directory ++ [cacheFileName (baseName childDirPath)]) with
  | some childCache =>
      childCache.foldl (fun m kv => insertJS m (baseName childDirPath :: kv.1) kv.2) mergedCache
  | none => mergedCache

/-- `loadChildCaches` (grid.ts lines 185-210): fold the per-child merge over
the immediate child directories, starting from an empty map. -/
def loadChildCaches (fs : FS) (directory : Key) (childDirPaths : List Key) : Cache :=
  childDirPaths.foldl (childStep fs directory) []

/-- The merge loop of `updateMetadataCache` (grid.ts lines 235-241): add a
recovered child entry only when the key is absent from the (evolving)
parent cache. -/
def mergeChildInto (oldCache : Cache) (childCaches : Cache) : Cache :=
  childCaches.foldl (fun acc kv => if Cache.hasKey acc kv.1 then acc else acc ++ [kv]) oldCache

/-- One directory's input to reconciliation: its (already validated) path,
its recursive media file list with paths relative to it (built by
`collectMediaFilesIteratively`), and its immediate child directories from
the scan result. -/
structure DirSpec where
  directory : Key
  mediaFiles : List MediaFile
  childDirPaths : List Key
deriving DecidableEq

/-- Result record of `updateMetadataCache`. -/
structure ReconcileResult where
  cache : Cache
  newFilesCount : Nat
deriving DecidableEq, Repr

/-- `updateMetadataCache` (grid.ts lines 212-345): load the directory's own
cache, merge recovered child-cache entries for absent keys, drop keys not in
the live file list, recompute or reuse an entry per live file, count the
misses, and persist the reconciled cache (full overwrite). -/
def updateMetadataCache (env : Env) (fs : FS) (args : DirSpec) : ReconcileResult × FS :=
  let cachePath := cacheFilePath args.directory
  let oldCache0 : Cache := (fs cachePath).getD []
  let childCaches := loadChildCaches fs args.directory args.childDirPaths
  let oldCache := mergeChildInto oldCache0 childCaches
  let currentFileNames := args.mediaFiles.map (·.relativePath)
  let cleanedCache := oldCache.filter (fun kv => currentFileNames.contains kv.1)
  let results := args.mediaFiles.map (fun f => (f.relativePath, processFile env cleanedCache f))
  let newCache := results.foldl (fun acc r => insertJS acc r.1 r.2.1) cleanedCache
  let newFilesCount := (results.filter (fun r => r.2.2)).length
  ({ cache := newCache, newFilesCount := newFilesCount },
   fun q => if q = cachePath then some newCache else fs q)

/-- `CELL_SIZE = 360` (grid.ts line 9). -/
def CELL_SIZE : Nat := 360

/-- `GRID_SIZE = CELL_SIZE * 2` (grid.ts line 10). -/
def GRID_SIZE : Nat := CELL_SIZE * 2

/-- `cellsPerRow = GRID_SIZE / CELL_SIZE` (grid.ts line 579). -/
def cellsPerRow : Nat := GRID_SIZE / CELL_SIZE

/-- `totalCells = cellsPerRow * cellsPerColumn` (grid.ts line 581). -/
def totalCells : Nat := cellsPerRow * cellsPerRow

/-- `processMediaFiles` (grid.ts lines 573-690), reduced to the fact the
claims are about: the mosaic JPEG is written iff at least one of the
randomly selected (up to `totalCells`) files was composited successfully.
Returns whether the mosaic artifact was written. -/
def processMediaFiles (env : Env) (mediaFiles : List MediaFile) : Bool :=
  let selectedFiles := (env.shuffleOf mediaFiles).take totalCells
  let processedImages := (selectedFiles.filter (fun f => env.cellOk f.absolutePath)).length
  decide (0 < processedImages)

/-- `getDirectoryInfo` (grid.ts lines 709-719): latest mtime and entry count
of a cache.  Returned as `(latestMtime, fileCount)`. -/
def getDirectoryInfo (cache : Cache) : Int × Nat :=
  cache.foldl (fun acc kv => (if kv.2.mtime > acc.1 then kv.2.mtime else acc.1, acc.2 + 1)) (0, 0)

/-- `DirectoryIndexEntry` (grid.ts lines 692-697), with the `path` field as
segments. -/
structure DirectoryIndexEntry where
  path : Key
  latestMtime : Int
  fileCount : Nat
  birthtime : Int
deriving DecidableEq, Repr

/-- `path.relative(base, p)` for the in-scope case where `base` is an
ancestor (or equal): the scanner builds every path by `path.join(parent,
name)`, so relative paths never need `..` segments. -/
def relSegs (base p : Key) : Key := p.drop base.length

/-- `path.relative(rootDir, directory) || "."` (grid.ts lines 784-786). -/
def indexPathOf (rootDir directory : Key) : Key :=
  let r := relSegs rootDir directory
  if r = [] then ["."] else r

/-- The directory's own index entry as built at grid.ts lines 781-790:
present iff the reconciled cache is non-empty, with the path relative to
the scan root. -/
def ownIndexEntry (rootDir directory : Key) (cache : Cache) (dirBirthtime : Int) :
    List DirectoryIndexEntry :=
  if 0 < (getDirectoryInfo cache).2 then
    [{ path := indexPathOf rootDir directory, latestMtime := (getDirectoryInfo cache).1,
       fileCount := (getDirectoryInfo cache).2, birthtime := dirBirthtime }]
  else []

/-- What one iteration of the `processAllDirectories` loop did for one
directory (observable artifacts and counter increments). -/
structure DirOutcome where
  directory : Key
  childDirPaths : List Key
  cache : Cache
  newFilesCount : Nat
  dirBirthtime : Int
  mosaicWritten : Bool
  pgridCounted : Bool
  indexEntries : List DirectoryIndexEntry
  indexWritten : Bool
deriving DecidableEq

/-- The mutable state threaded through the `processAllDirectories` loop:
the cache sidecar filesystem, the `dirResults` map and the counters. -/
structure PipelineState where
  fs : FS
  dirResults : Key → Option (Cache × List DirectoryIndexEntry)
  totalNewFiles : Nat
  pgridsGenerated : Nat
  pgridsSkipped : Nat
  totalFilesProcessed : Nat

/-- `processDirectoryWithScanResult` (grid.ts lines 497-552) followed by the
per-directory body of the `processAllDirectories` loop (lines 771-829):
reconcile the cache (skipped entirely when the recursive media list is
empty), compose the mosaic, build this directory's index entry list from
its own entry plus the already-computed lists of its immediate
subdirectories, persist the index iff non-empty, and record the results
for the parent's turn. -/
def processDirectoryStep (env : Env) (rootDir : Key) (st : PipelineState) (d : DirSpec) :
    PipelineState × DirOutcome :=
  let pr :=
    if d.mediaFiles.isEmpty then
      (({ cache := [], newFilesCount := 0 } : ReconcileResult), st.fs, (0 : Int), false)
    else
      let u := updateMetadataCache env st.fs d
      let dirBirthtime := (env.birthOf d.directory).getD 0
      let mosaicWritten := processMediaFiles env d.mediaFiles
      (u.1, u.2, dirBirthtime, mosaicWritten)
  let result := pr.1
  let fs' := pr.2.1
  let dirBirthtime := pr.2.2.1
  let mosaicWritten := pr.2.2.2
  let filesInDir := result.cache.length
  let dirInfo := getDirectoryInfo result.cache
  let own := ownIndexEntry rootDir d.directory result.cache dirBirthtime
  let subEntries := d.childDirPaths.flatMap (fun c => ((st.dirResults c).map (·.2)).getD [])
  let allIndexEntries := own ++ subEntries
  let out : DirOutcome := {
    directory := d.directory, childDirPaths := d.childDirPaths, cache := result.cache,
    newFilesCount := result.newFilesCount, dirBirthtime := dirBirthtime,
    mosaicWritten := mosaicWritten, pgridCounted := decide (0 < dirInfo.2),
    indexEntries := allIndexEntries, indexWritten := decide (allIndexEntries ≠ []) }
  ({ fs := fs',
     dirResults := fun q => if q = d.directory then some (result.cache, allIndexEntries) else st.dirResults q,
     totalNewFiles := st.totalNewFiles + result.newFilesCount,
     pgridsGenerated := st.pgridsGenerated + (if 0 < dirInfo.2 then 1 else 0),
     pgridsSkipped := st.pgridsSkipped + (if 0 < dirInfo.2 then 0 else if filesInDir = 0 then 1 else 0),
     totalFilesProcessed := st.totalFilesProcessed + filesInDir }, out)

/-- The sequential `for (const directory of allDirectories)` loop. -/
def runSteps (env : Env) (rootDir : Key) : PipelineState → List DirSpec → PipelineState × List DirOutcome
  | _st, [] => (_st, [])
  | st, d :: ds =>
    let p := processDirectoryStep env rootDir st d
    let r := runSteps env rootDir p.1 ds
    (r.1, p.2 :: r.2)

/-- The comparator of grid.ts lines 748-752: `depthB - depthA`, i.e. sort by
path-segment count, deepest first. -/
def specDepthLe (a b : DirSpec) : Prop := b.directory.length ≤ a.directory.length

instance : DecidableRel specDepthLe := fun _ _ => Nat.decLe _ _

instance : IsTotal DirSpec specDepthLe := ⟨fun a b => Nat.le_total b.directory.length a.directory.length⟩

instance : IsTrans DirSpec specDepthLe := ⟨fun _ _ _ h h' => Nat.le_trans h' h⟩

/-- `allDirectories.sort((a, b) => depthB - depthA)`: a stable sort by
segment count descending. -/
def sortSpecs (specs : List DirSpec) : List DirSpec := List.insertionSort specDepthLe specs

/-- Initial loop state of `processAllDirectories`. -/
def initState (fs₀ : FS) : PipelineState :=
  { fs := fs₀, dirResults := fun _ => none, totalNewFiles := 0, pgridsGenerated := 0,
    pgridsSkipped := 0, totalFilesProcessed := 0 }

/-- `processAllDirectories` (grid.ts lines 742-852), taking the scan result
as a list of per-directory `DirSpec`s: sort deepest-first and fold the
per-directory step over them.  Returns the final state and the per-directory
outcome log in processing order. -/
def processAllDirectories (env : Env) (rootDir : Key) (specs : List DirSpec) (fs₀ : FS) :
    PipelineState × List DirOutcome :=
  runSteps env rootDir (initState fs₀) (sortSpecs specs)

/-- First-some choice on options; `a[k] ? a[k] : b[k]`. -/
def orElseO (a b : Option CacheEntry) : Option CacheEntry :=
  match a with
  | some v => some v
  | none => b

/-- The value the last occurrence of key `k` carries in an assignment list
(later assignments win), mirroring the net effect of the `newCache[name] =
entry` loop. -/
def lastAssoc : List (Key × CacheEntry) → Key → Option CacheEntry
  | [], _ => none
  | r :: rs, k =>
    match lastAssoc rs k with
    | some v => some v
    | none => if r.1 = k then some r.2 else none

/-- Applying a list of JavaScript assignments to a cache. -/
def foldIns (c : Cache) (rs : List (Key × CacheEntry)) : Cache :=
  rs.foldl (fun acc r => insertJS acc r.1 r.2) c

/-- A JSON rendering of a cache in insertion order, modelling
`JSON.stringify(newCache, null, 2)` up to whitespace: equal caches
serialize to identical bytes. -/
def serializeEntry (e : CacheEntry) : String :=
  "\x7b\"fileSize\":" ++ toString e.fileSize ++ ",\"mtime\":" ++ toString e.mtime ++
    ",\"size\":\x7b\"width\":" ++ toString e.size.width ++ ",\"height\":" ++
    toString e.size.height ++ "\x7d\x7d"

/-- JSON rendering of one cache key. -/
def serializeKey (k : Key) : String := "\"" ++ String.intercalate "/" k ++ "\""

/-- JSON rendering of a whole cache file. -/
def serializeCache (c : Cache) : String :=
  "\x7b" ++ String.intercalate "," (c.map (fun kv => serializeKey kv.1 ++ ":" ++ serializeEntry kv.2)) ++ "\x7d"

/-! ### Video thumbnail extraction (`temporaryFile` + `getVideoThumbnail`) -/

/-- Failure oracles for the steps of `getVideoThumbnail` (grid.ts lines
61-68 and 78-148).  `false` means that step throws: `Deno.makeTempDir`,
`Deno.makeTempFile`, `probeCmd.output()`, `ffmpegCmd.output()`,
`Deno.readFile`, and the `sharp(imageData)` construction. -/
structure VideoEnv where
  mkTempDirOk : Bool
  mkTempFileOk : Bool
  probeOk : Bool
  ffmpegOk : Bool
  readOk : Bool
  sharpOk : Bool
deriving DecidableEq, Repr

/-- What happened inside the `try` block of `getVideoThumbnail`: its result
(`Except.error` = an exception propagating to the `catch`), whether
`tmpPath`/`tmpDir` got assigned, and which temporary resources were
actually created on disk. -/
structure VideoAttempt where
  body : Except Unit (Option Unit)
  tmpAssigned : Bool
  dirCreated : Bool
  fileCreated : Bool
deriving Repr

/-- The `try` block of `getVideoThumbnail`: `temporaryFile` (makeTempDir
then makeTempFile, either may throw — note `tmpPath`/`tmpDir` are assigned
only after *both* succeed), then probe, frame extraction, read, and sharp
construction, each of which may throw. -/
def videoTryBody (env : VideoEnv) : VideoAttempt :=
  if ¬env.mkTempDirOk then { body := Except.error (), tmpAssigned := false, dirCreated := false, fileCreated := false }
  else if ¬env.mkTempFileOk then { body := Except.error (), tmpAssigned := false, dirCreated := true, fileCreated := false }
  else if ¬env.probeOk then { body := Except.error (), tmpAssigned := true, dirCreated := true, fileCreated := true }
  else if ¬env.ffmpegOk then { body := Except.error (), tmpAssigned := true, dirCreated := true, fileCreated := true }
  else if ¬env.readOk then { body := Except.error (), tmpAssigned := true, dirCreated := true, fileCreated := true }
  else if ¬env.sharpOk then { body := Except.error (), tmpAssigned := true, dirCreated := true, fileCreated := true }
  else { body := Except.ok (some ()), tmpAssigned := true, dirCreated := true, fileCreated := true }

/-- Observable outcome of one `getVideoThumbnail` call: the returned value
(`none` = `null`) — the `catch` swallows every exception, so no exception
escapes — and which temporary resources were created/removed. -/
structure VideoOutcome where
  result : Option Unit
  dirCreated : Bool
  fileCreated : Bool
  dirRemoved : Bool
  fileRemoved : Bool
deriving DecidableEq, Repr

/-- `getVideoThumbnail` (grid.ts lines 78-148): run the `try` body, map any
exception to `null` in the `catch`, and in the `finally` remove the
temporary file and directory — but only when the corresponding variables
were assigned. -/
def getVideoThumbnail (env : VideoEnv) : VideoOutcome :=
  let a := videoTryBody env
  let result := match a.body with
    | Except.ok r => r
    | Except.error _ => none
  { result := result, dirCreated := a.dirCreated, fileCreated := a.fileCreated,
    fileRemoved := a.tmpAssigned, dirRemoved := a.tmpAssigned }

/-! ### Path validation (`validatePath`) and top-level error propagation -/

/-- Substring test on character lists (`String.prototype.includes`). -/
def listHasSub (pat : List Char) : List Char → Bool
  | [] => pat.isEmpty
  | c :: cs => pat.isPrefixOf (c :: cs) || listHasSub pat cs

/-- `s.includes(pat)`. -/
def strIncludes (s pat : String) : Bool := listHasSub pat.data s.data

/-- `validatePath` (grid.ts lines 70-76), parameterized by the external
`path.normalize`: throw `"Path traversal detected"` when the normalized
path contains `".."`, otherwise return the normalized path. -/
def validatePath (normalize : String → String) (directory : String) : Except String String :=
  let normalizedPath := normalize directory
  if strIncludes normalizedPath ".." then Except.error "Path traversal detected"
  else Except.ok normalizedPath

/-- The error-propagation skeleton of the run: every processed directory
(the root included, since the scanner records it) passes through
`validatePath` inside `processDirectoryWithScanResult` (grid.ts line 501)
with no intermediate catch; the first throw propagates out of
`processAllDirectories`. -/
def validateAll (normalize : String → String) : List String → Except String Unit
  | [] => Except.ok ()
  | d :: ds =>
    match validatePath normalize d with
    | Except.error e => Except.error e
    | Except.ok _ => validateAll normalize ds

/-- The top-level `try`/`catch` of grid.ts lines 862-893: a propagated
error is caught at the outermost scope and the process exits with code 1. -/
def mainExitCode (normalize : String → String) (dirs : List String) : Nat :=
  match validateAll normalize dirs with
  | Except.ok _ => 0
  | Except.error _ => 1

/-! ### Concrete sample data used by witnesses and counterexamples -/

/-- A concrete oracle environment: one image file `/r/a/b/x.jpg` with stat
`(100, 5)` and dimensions 64×48; everything else fails to stat/probe. -/
def sampleEnv : Env :=
  { statOf := fun p => if p = ["r", "a", "b", "x.jpg"] then some (100, 5) else none,
    probeOf := fun p => if p = ["r", "a", "b", "x.jpg"] then some ⟨64, 48⟩ else none,
    shuffleOf := fun l => l,
    cellOk := fun _ => true,
    birthOf := fun _ => some 7 }

/-- Scan result of the sample tree `r ⊃ a ⊃ b ∋ x.jpg`, already listed
deepest-first. -/
def sampleSpecs : List DirSpec :=
  [ { directory := ["r", "a", "b"],
      mediaFiles := [{ absolutePath := ["r", "a", "b", "x.jpg"], relativePath := ["x.jpg"] }],
      childDirPaths := [] },
    { directory := ["r", "a"],
      mediaFiles := [{ absolutePath := ["r", "a", "b", "x.jpg"], relativePath := ["b", "x.jpg"] }],
      childDirPaths := [["r", "a", "b"]] },
    { directory := ["r"],
      mediaFiles := [{ absolutePath := ["r", "a", "b", "x.jpg"], relativePath := ["a", "b", "x.jpg"] }],
      childDirPaths := [["r", "a"]] } ]

/-- An environment in which every file stats fine but every dimension probe
and every mosaic cell composition fails (e.g. corrupt media). -/
def failEnv : Env :=
  { statOf := fun _ => some (10, 3),
    probeOf := fun _ => none,
    shuffleOf := fun l => l,
    cellOk := fun _ => false,
    birthOf := fun _ => some 0 }

/-- A directory holding a single (corrupt) media file. -/
def failSpec : DirSpec :=
  { directory := ["r", "m"],
    mediaFiles := [{ absolutePath := ["r", "m", "v.mp4"], relativePath := ["v.mp4"] }],
    childDirPaths := [] }

/-- The pipeline run over the sample tree from an empty filesystem. -/
def sampleRun : PipelineState × List DirOutcome :=
  processAllDirectories sampleEnv ["r"] sampleSpecs (fun _ => none)

/-- A filesystem holding exactly one cache sidecar: the cache of `/r/a/b`,
stored as `/r/a/.b_pgrid.json`, with one entry for `x.jpg`. -/
def childFS : FS := fun p =>
  if p = ["r", "a", ".b_pgrid.json"] then
    some [(["x.jpg"], { fileSize := 100, mtime := 5, size := ⟨64, 48⟩ })]
  else none

/-! ### Named views of the intermediate values of `updateMetadataCache`,
used to state lemmas about it -/

/-- The working cache after loading the directory's own cache file and
merging the recovered child-cache entries. -/
def mergedOldCache (fs : FS) (args : DirSpec) : Cache :=
  mergeChildInto ((fs (cacheFilePath args.directory)).getD [])
    (loadChildCaches fs args.directory args.childDirPaths)

/-- The live relative paths (`currentFileNames`). -/
def liveKeys (args : DirSpec) : List Key := args.mediaFiles.map (·.relativePath)

/-- `cleanedCache`: the working cache restricted to live keys. -/
def cleanedOf (fs : FS) (args : DirSpec) : Cache :=
  (mergedOldCache fs args).filter (fun kv => (liveKeys args).contains kv.1)

/-- The `(name, entry)` assignment list produced by the per-file tasks. -/
def entriesOf (env : Env) (fs : FS) (args : DirSpec) : List (Key × CacheEntry) :=
  args.mediaFiles.map (fun f => (f.relativePath, (processFile env (cleanedOf fs args) f).1))

/-! ## Lemmas about the JavaScript-object association lists -/

instance : Inhabited Size := ⟨⟨0, 0⟩⟩

instance : Inhabited CacheEntry := ⟨{ fileSize := 0, mtime := 0, size := ⟨0, 0⟩ }⟩

theorem hasKey_iff {c : Cache} {k : Key} : Cache.hasKey c k = true ↔ ∃ e, (k, e) ∈ c := by
  unfold Cache.hasKey
  rw [List.any_eq_true]
  constructor
  · rintro ⟨⟨a, b⟩, hm, hp⟩
    have ha : a = k := by simpa using hp
    exact ⟨b, ha ▸ hm⟩
  · rintro ⟨e, hm⟩
    exact ⟨(k, e), hm, by simp⟩

theorem lookup_isSome_iff {c : Cache} {k : Key} :
    (Cache.lookup c k).isSome = true ↔ ∃ e, (k, e) ∈ c := by
  unfold Cache.lookup
  cases hf : c.find? (fun p => p.1 == k) with
  | none =>
    have hn := List.find?_eq_none.1 hf
    refine iff_of_false (by simp) ?_
    rintro ⟨e, he⟩
    exact absurd (by simp : (((k, e) : Key × CacheEntry).1 == k) = true) (hn _ he)
  | some q =>
    have hq : q ∈ c := List.mem_of_find?_eq_some hf
    have hpk : q.1 = k := by simpa using List.find?_some hf
    refine iff_of_true (by simp) ⟨q.2, ?_⟩
    rcases q with ⟨a, b⟩
    simp only at hpk
    rw [← hpk]
    exact hq

theorem lookup_mem {c : Cache} {k : Key} {v : CacheEntry} (h : Cache.lookup c k = some v) :
    (k, v) ∈ c := by
  unfold Cache.lookup at h
  cases hf : c.find? (fun p => p.1 == k) with
  | none => rw [hf] at h; cases h
  | some q =>
    rw [hf] at h
    have hq : q ∈ c := List.mem_of_find?_eq_some hf
    have hpk : q.1 = k := by simpa using List.find?_some hf
    have hv : q.2 = v := by simpa using h
    have hqe : (k, v) = q := by
      rcases q with ⟨a, b⟩
      simp only at hpk hv
      rw [hpk, hv]
    rw [hqe]
    exact hq

theorem lookup_eq_none_iff {c : Cache} {k : Key} :
    Cache.lookup c k = none ↔ ∀ e, (k, e) ∉ c := by
  rw [← Option.not_isSome_iff_eq_none]
  constructor
  · intro h e he
    exact h (lookup_isSome_iff.2 ⟨e, he⟩)
  · intro h hs
    obtain ⟨e, he⟩ := lookup_isSome_iff.1 (by simpa using hs)
    exact h e he

theorem lookup_append {c₁ c₂ : Cache} {k : Key} :
    Cache.lookup (c₁ ++ c₂) k = orElseO (Cache.lookup c₁ k) (Cache.lookup c₂ k) := by
  unfold Cache.lookup
  rw [List.find?_append]
  cases h : c₁.find? (fun p => p.1 == k) <;> simp [h, Option.or, orElseO]

theorem mem_insertJS {c : Cache} {k : Key} {v : CacheEntry} {a : Key} {b : CacheEntry} :
    (a, b) ∈ insertJS c k v ↔ (a = k ∧ b = v) ∨ ((a, b) ∈ c ∧ a ≠ k) := by
  unfold insertJS
  by_cases hb : Cache.hasKey c k = true
  · rw [if_pos hb]
    simp only [List.mem_map]
    constructor
    · rintro ⟨⟨qa, qb⟩, hq, hfq⟩
      by_cases hk : qa = k
      · left
        have : (k, v) = (a, b) := by simpa [hk] using hfq
        exact ⟨(congrArg Prod.fst this).symm, (congrArg Prod.snd this).symm⟩
      · right
        have heq : (qa, qb) = (a, b) := by simpa [hk] using hfq
        have ha : qa = a := congrArg Prod.fst heq
        have hb : qb = b := congrArg Prod.snd heq
        exact ⟨ha ▸ hb ▸ hq, ha ▸ hk⟩
    · rintro (⟨ha, hv⟩ | ⟨hp, hk⟩)
      · obtain ⟨e, he⟩ := hasKey_iff.1 hb
        exact ⟨(k, e), he, by simp [ha, hv]⟩
      · exact ⟨(a, b), hp, by simp [hk]⟩
  · rw [if_neg hb]
    simp only [List.mem_append, List.mem_singleton]
    constructor
    · rintro (hp | hp)
      · right
        refine ⟨hp, fun hk => hb (hasKey_iff.2 ⟨b, hk ▸ hp⟩)⟩
      · left
        exact ⟨(congrArg Prod.fst hp), (congrArg Prod.snd hp)⟩
    · rintro (⟨ha, hv⟩ | ⟨hp, _⟩)
      · right
        rw [ha, hv]
      · left
        exact hp

theorem insertJS_eq_self {c : Cache} {k : Key} {v : CacheEntry}
    (hk : Cache.hasKey c k = true) (hv : ∀ e, (k, e) ∈ c → e = v) :
    insertJS c k v = c := by
  unfold insertJS
  rw [if_pos hk]
  have hcong : ∀ p ∈ c, (if p.1 == k then (k, v) else p) = p := by
    rintro ⟨a, b⟩ hp
    by_cases h : a = k
    · subst h
      have : b = v := hv b hp
      simp [this]
    · simp [h]
  calc c.map (fun p => if p.1 == k then (k, v) else p) = c.map id := List.map_congr_left hcong
    _ = c := List.map_id c

theorem lookup_eq_some_of_unique {c : Cache} {k : Key} {v : CacheEntry}
    (hk : ∃ e, (k, e) ∈ c) (hv : ∀ e, (k, e) ∈ c → e = v) :
    Cache.lookup c k = some v := by
  obtain ⟨e0, he0⟩ := hk
  have hs : (Cache.lookup c k).isSome = true := lookup_isSome_iff.2 ⟨e0, he0⟩
  obtain ⟨w, hw⟩ := Option.isSome_iff_exists.1 hs
  rw [hw, hv w (lookup_mem hw)]

theorem lastAssoc_isSome_iff {rs : List (Key × CacheEntry)} {k : Key} :
    (lastAssoc rs k).isSome = true ↔ k ∈ rs.map (·.1) := by
  induction rs with
  | nil => simp [lastAssoc]
  | cons r rs ih =>
    simp only [List.map_cons, List.mem_cons]
    cases h : lastAssoc rs k with
    | some v =>
      have hm : k ∈ rs.map (·.1) := ih.1 (by simp [h])
      simp [lastAssoc, h, hm]
    | none =>
      have hnm : ¬ k ∈ rs.map (·.1) := fun hm => by
        rw [h] at ih
        exact absurd (ih.2 hm) (by simp)
      simp only [lastAssoc, h]
      by_cases hk : r.1 = k
      · simp [hk]
      · simp only [if_neg hk, Option.isSome_none]
        refine iff_of_false (by simp) ?_
        rintro (h' | h')
        · exact hk h'.symm
        · exact hnm h'

theorem lastAssoc_eq_some_of_mem_nodup {rs : List (Key × CacheEntry)}
    (hnd : (rs.map (·.1)).Nodup) {k : Key} {v : CacheEntry} (hm : (k, v) ∈ rs) :
    lastAssoc rs k = some v := by
  induction rs with
  | nil => cases hm
  | cons r rs ih =>
    simp only [List.map_cons, List.nodup_cons] at hnd
    rcases List.mem_cons.1 hm with h | h
    · have hk : ¬ (lastAssoc rs k).isSome = true := by
        rw [lastAssoc_isSome_iff]
        rw [← h] at hnd
        exact hnd.1
      have hnone : lastAssoc rs k = none := Option.not_isSome_iff_eq_none.1 hk
      simp [lastAssoc, hnone, ← h]
    · have := ih hnd.2 h
      simp [lastAssoc, this]

theorem mem_foldIns {rs : List (Key × CacheEntry)} :
    ∀ {c : Cache} {a : Key} {b : CacheEntry},
      (a, b) ∈ foldIns c rs ↔ lastAssoc rs a = some b ∨ ((a, b) ∈ c ∧ lastAssoc rs a = none) := by
  induction rs with
  | nil =>
    intro c a b
    simp [foldIns, lastAssoc]
  | cons r rs ih =>
    intro c a b
    have hstep : foldIns c (r :: rs) = foldIns (insertJS c r.1 r.2) rs := rfl
    rw [hstep, ih]
    cases h : lastAssoc rs a with
    | some v =>
      simp [lastAssoc, h]
    | none =>
      simp only [lastAssoc, h, mem_insertJS]
      by_cases hk : r.1 = a
      · rw [if_pos hk]
        constructor
        · rintro (h' | ⟨(⟨-, hv⟩ | ⟨-, hne⟩), -⟩)
          · cases h'
          · left
            rw [hv]
          · exact absurd hk.symm hne
        · rintro (h' | ⟨-, h'⟩)
          · right
            refine ⟨Or.inl ⟨hk.symm, ?_⟩, trivial⟩
            exact (Option.some.injEq .. ▸ h' : r.2 = b).symm
          · cases h'
      · rw [if_neg hk]
        constructor
        · rintro (h' | ⟨(⟨ha, -⟩ | ⟨hp, -⟩), -⟩)
          · cases h'
          · exact absurd ha.symm hk
          · right
            exact ⟨hp, rfl⟩
        · rintro (h' | ⟨hp, -⟩)
          · cases h'
          · right
            exact ⟨Or.inr ⟨hp, fun he => hk he.symm⟩, trivial⟩

theorem orElseO_assoc {a b c : Option CacheEntry} :
    orElseO (orElseO a b) c = orElseO a (orElseO b c) := by
  cases a <;> rfl

theorem lookup_cons {p : Key × CacheEntry} {c : Cache} {k : Key} :
    Cache.lookup (p :: c) k = if p.1 = k then some p.2 else Cache.lookup c k := by
  by_cases h : p.1 = k
  · rw [if_pos h]
    unfold Cache.lookup
    rw [List.find?_cons_of_pos _ (by simpa using h)]
    rfl
  · rw [if_neg h]
    unfold Cache.lookup
    rw [List.find?_cons_of_neg _ (by simpa using h)]

theorem hasKey_eq_lookup_isSome {c : Cache} {k : Key} :
    Cache.hasKey c k = (Cache.lookup c k).isSome := by
  by_cases h : ∃ e, (k, e) ∈ c
  · rw [hasKey_iff.2 h, (lookup_isSome_iff.2 h)]
  · have h1 : Cache.hasKey c k ≠ true := fun hh => h (hasKey_iff.1 hh)
    have h2 : (Cache.lookup c k).isSome ≠ true := fun hh => h (lookup_isSome_iff.1 hh)
    rw [Bool.eq_false_iff.2 h1, Bool.eq_false_iff.2 h2]

theorem lookup_nil {k : Key} : Cache.lookup ([] : Cache) k = none := rfl

theorem lookup_mergeChildInto {cc : Cache} :
    ∀ {old : Cache} {k : Key},
      Cache.lookup (mergeChildInto old cc) k =
        orElseO (Cache.lookup old k) (Cache.lookup cc k) := by
  induction cc with
  | nil =>
    intro old k
    show Cache.lookup old k = orElseO (Cache.lookup old k) (Cache.lookup ([] : Cache) k)
    cases h : Cache.lookup old k <;> rfl
  | cons kv cc ih =>
    intro old k
    have hstep : mergeChildInto old (kv :: cc) =
        mergeChildInto (if Cache.hasKey old kv.1 then old else old ++ [kv]) cc := rfl
    rw [hstep]
    by_cases hb : Cache.hasKey old kv.1 = true
    · rw [if_pos hb, ih]
      simp only [lookup_cons]
      by_cases hk : kv.1 = k
      · have hs : (Cache.lookup old k).isSome = true := by
          rw [← hasKey_eq_lookup_isSome, ← hk]
          exact hb
        obtain ⟨w, hw⟩ := Option.isSome_iff_exists.1 hs
        rw [if_pos hk, hw]
        rfl
      · rw [if_neg hk]
    · rw [if_neg hb, ih, lookup_append, orElseO_assoc]
      congr 1
      simp only [lookup_cons, lookup_nil]
      by_cases hk : kv.1 = k
      · rw [if_pos hk, if_pos hk]
        rfl
      · rw [if_neg hk, if_neg hk]
        rfl

theorem mem_inner_child_fold {d : String} {cc : Cache} :
    ∀ {m : Cache} {k : Key} {e : CacheEntry},
      (k, e) ∈ cc.foldl (fun m kv => insertJS m (d :: kv.1) kv.2) m →
      (k, e) ∈ m ∨ ∃ rest, (rest, e) ∈ cc ∧ k = d :: rest := by
  induction cc with
  | nil =>
    intro m k e h
    exact Or.inl h
  | cons kv cc ih =>
    intro m k e h
    have hstep : (kv :: cc).foldl (fun m kv => insertJS m (d :: kv.1) kv.2) m =
        cc.foldl (fun m kv => insertJS m (d :: kv.1) kv.2) (insertJS m (d :: kv.1) kv.2) := rfl
    rw [hstep] at h
    rcases ih h with h' | ⟨rest, hr, hk⟩
    · rcases mem_insertJS.1 h' with ⟨hk, hv⟩ | ⟨hm, -⟩
      · right
        refine ⟨kv.1, ?_, hk⟩
        rw [hv]
        exact List.mem_cons_self _ _
      · exact Or.inl hm
    · right
      exact ⟨rest, List.mem_cons_of_mem _ hr, hk⟩

theorem childStep_none {fs : FS} {directory : Key} {m : Cache} {c : Key}
    (hf : fs (directory ++ [cacheFileName (baseName c)]) = none) :
    childStep fs directory m c = m := by
  unfold childStep
  rw [hf]

theorem childStep_some {fs : FS} {directory : Key} {m : Cache} {c : Key} {cc : Cache}
    (hf : fs (directory ++ [cacheFileName (baseName c)]) = some cc) :
    childStep fs directory m c = cc.foldl (fun m kv => insertJS m (baseName c :: kv.1) kv.2) m := by
  unfold childStep
  rw [hf]

theorem mem_loadChildCaches {fs : FS} {directory : Key} {childDirPaths : List Key}
    {k : Key} {e : CacheEntry} (h : (k, e) ∈ loadChildCaches fs directory childDirPaths) :
    ∃ c ∈ childDirPaths, ∃ rest cc,
      fs (directory ++ [cacheFileName (baseName c)]) = some cc ∧
      (rest, e) ∈ cc ∧ k = baseName c :: rest := by
  have aux : ∀ (cps : List Key) (m : Cache),
      (∀ k' e', (k', e') ∈ m → ∃ c ∈ childDirPaths, ∃ rest cc,
        fs (directory ++ [cacheFileName (baseName c)]) = some cc ∧
        (rest, e') ∈ cc ∧ k' = baseName c :: rest) →
      (∀ c ∈ cps, c ∈ childDirPaths) →
      ∀ k' e', (k', e') ∈ cps.foldl (childStep fs directory) m →
        ∃ c ∈ childDirPaths, ∃ rest cc,
          fs (directory ++ [cacheFileName (baseName c)]) = some cc ∧
          (rest, e') ∈ cc ∧ k' = baseName c :: rest := by
    intro cps
    induction cps with
    | nil =>
      intro m hm _ k' e' h'
      exact hm k' e' h'
    | cons c cps ih =>
      intro m hm hsub k' e' h'
      rw [List.foldl_cons] at h'
      cases hf : fs (directory ++ [cacheFileName (baseName c)]) with
      | none =>
        rw [childStep_none hf] at h'
        exact ih m hm (fun c' hc' => hsub c' (List.mem_cons_of_mem _ hc')) k' e' h'
      | some childCache =>
        rw [childStep_some hf] at h'
        refine ih _ ?_ (fun c' hc' => hsub c' (List.mem_cons_of_mem _ hc')) k' e' h'
        intro k'' e'' h''
        rcases mem_inner_child_fold h'' with h''' | ⟨rest, hr, hk⟩
        · exact hm k'' e'' h'''
        · exact ⟨c, hsub c (List.mem_cons_self _ _), rest, childCache, hf, hr, hk⟩
  exact aux childDirPaths [] (by intro k' e' h'; cases h') (fun c hc => hc) k e h

/-! ## Unfolding lemmas for `updateMetadataCache` -/

theorem updateMetadataCache_cache_eq (env : Env) (fs : FS) (args : DirSpec) :
    (updateMetadataCache env fs args).1.cache =
      foldIns (cleanedOf fs args) (entriesOf env fs args) := by
  unfold updateMetadataCache foldIns entriesOf cleanedOf mergedOldCache liveKeys
  simp only [List.foldl_map]

theorem updateMetadataCache_count_eq (env : Env) (fs : FS) (args : DirSpec) :
    (updateMetadataCache env fs args).1.newFilesCount =
      (args.mediaFiles.filter (fun f => (processFile env (cleanedOf fs args) f).2)).length := by
  unfold updateMetadataCache cleanedOf mergedOldCache liveKeys
  simp only [List.filter_map, List.length_map]
  rfl

theorem updateMetadataCache_fs_eq (env : Env) (fs : FS) (args : DirSpec) (q : Key) :
    (updateMetadataCache env fs args).2 q =
      if q = cacheFilePath args.directory then some (updateMetadataCache env fs args).1.cache
      else fs q := rfl

theorem mem_cleanedOf {fs : FS} {args : DirSpec} {k : Key} {e : CacheEntry} :
    (k, e) ∈ cleanedOf fs args ↔ (k, e) ∈ mergedOldCache fs args ∧ k ∈ liveKeys args := by
  unfold cleanedOf
  rw [List.mem_filter]
  simp only [List.contains, List.elem_iff]

theorem entriesOf_keys (env : Env) (fs : FS) (args : DirSpec) :
    (entriesOf env fs args).map (·.1) = liveKeys args := by
  unfold entriesOf liveKeys
  rw [List.map_map]
  rfl

theorem reconcile_keys (env : Env) (fs : FS) (args : DirSpec) {k : Key} :
    (Cache.lookup (updateMetadataCache env fs args).1.cache k).isSome = true ↔
      k ∈ liveKeys args := by
  rw [updateMetadataCache_cache_eq, lookup_isSome_iff]
  constructor
  · rintro ⟨e, he⟩
    rcases mem_foldIns.1 he with h | ⟨hc, -⟩
    · have hs : (lastAssoc (entriesOf env fs args) k).isSome = true := by simp [h]
      rw [lastAssoc_isSome_iff, entriesOf_keys] at hs
      exact hs
    · exact (mem_cleanedOf.1 hc).2
  · intro hk
    have hm : k ∈ (entriesOf env fs args).map (·.1) := by
      rw [entriesOf_keys]
      exact hk
    obtain ⟨e, he⟩ := Option.isSome_iff_exists.1 (lastAssoc_isSome_iff.2 hm)
    exact ⟨e, mem_foldIns.2 (Or.inl he)⟩

/-! ## Claim theorems for the per-directory reconciliation -/

/-- C1: for every live media file handled by `updateMetadataCache`'s
`processFile`, when a cache entry exists for the file's relative path and
its stored `fileSize`/`mtime` exactly equal the fresh stat values, the
stored pixel dimensions are reused, no probe is consulted (the result is
the same for every probe oracle), and the new-file flag is not set;
otherwise the new-file flag is set and the dimensions are re-determined,
a failing probe leaving the `0×0` sentinel (`Option.getD ⟨0,0⟩`). -/
theorem processFile_freshness (env : Env) (cleaned : Cache) (f : MediaFile)
    (fsz : Nat) (mt : Int) (hstat : env.statOf f.absolutePath = some (fsz, mt)) :
    (∀ e, Cache.lookup cleaned f.relativePath = some e → e.fileSize = fsz → e.mtime = mt →
       ∀ p, processFile { env with probeOf := p } cleaned f =
         ({ fileSize := fsz, mtime := mt, size := e.size }, false)) ∧
    ((∀ e, Cache.lookup cleaned f.relativePath = some e → ¬(e.fileSize = fsz ∧ e.mtime = mt)) →
       (processFile env cleaned f).2 = true ∧
       (processFile env cleaned f).1 =
         { fileSize := fsz, mtime := mt, size := (env.probeOf f.absolutePath).getD ⟨0, 0⟩ }) := by
  constructor
  · intro e he hfs hmt p
    simp only [processFile, statVals, hstat, he]
    rw [if_pos ⟨hfs, hmt⟩]
  · intro hmiss
    cases hl : Cache.lookup cleaned f.relativePath with
    | none =>
      simp only [processFile, statVals, hstat, hl]
      exact ⟨by trivial, by trivial⟩
    | some e =>
      have hne := hmiss e hl
      simp only [processFile, statVals, hstat, hl]
      rw [if_neg hne]
      exact ⟨by trivial, by trivial⟩

/-- Witness for C1: a cache hit on the sample file (stored entry matches
the stat) and a cache miss on an empty cache. -/
theorem processFile_freshness_witness :
    sampleEnv.statOf ["r", "a", "b", "x.jpg"] = some (100, 5) ∧
    ((∀ e, Cache.lookup [] (["x.jpg"] : Key) = some e → e.fileSize = 100 → e.mtime = 5 →
       ∀ p, processFile { sampleEnv with probeOf := p } []
           { absolutePath := ["r", "a", "b", "x.jpg"], relativePath := ["x.jpg"] } =
         ({ fileSize := 100, mtime := 5, size := e.size }, false)) ∧
     ((∀ e, Cache.lookup [] (["x.jpg"] : Key) = some e → ¬(e.fileSize = 100 ∧ e.mtime = 5)) →
       (processFile sampleEnv []
           { absolutePath := ["r", "a", "b", "x.jpg"], relativePath := ["x.jpg"] }).2 = true ∧
       (processFile sampleEnv []
           { absolutePath := ["r", "a", "b", "x.jpg"], relativePath := ["x.jpg"] }).1 =
         { fileSize := 100, mtime := 5,
           size := (sampleEnv.probeOf ["r", "a", "b", "x.jpg"]).getD ⟨0, 0⟩ })) :=
  ⟨by decide,
   processFile_freshness sampleEnv []
     { absolutePath := ["r", "a", "b", "x.jpg"], relativePath := ["x.jpg"] } 100 5 (by decide)⟩

/-- C2: after `updateMetadataCache` completes, the reconciled cache's key
set is exactly the set of live relative paths (stale keys dropped, every
live file present), and exactly that cache is persisted at the directory's
cache sidecar path. -/
theorem reconciled_cache_key_set (env : Env) (fs : FS) (d : DirSpec) :
    (∀ k, (Cache.lookup (updateMetadataCache env fs d).1.cache k).isSome = true ↔
        k ∈ d.mediaFiles.map (·.relativePath)) ∧
    (updateMetadataCache env fs d).2 (cacheFilePath d.directory) =
      some (updateMetadataCache env fs d).1.cache := by
  constructor
  · intro k
    exact reconcile_keys env fs d
  · rw [updateMetadataCache_fs_eq, if_pos rfl]

/-- C4: every entry recovered by `loadChildCaches` is keyed by the child
directory's name prefixed onto the entry's relative path inside that
child's cache file, and the merge into the parent's loaded cache keeps the
parent's entry on every key collision (recovered entries fill in only
absent keys). -/
theorem child_cache_recovery (fs : FS) (directory : Key) (childDirPaths : List Key)
    (oldCache : Cache) :
    (∀ k, Cache.lookup (mergeChildInto oldCache (loadChildCaches fs directory childDirPaths)) k =
        orElseO (Cache.lookup oldCache k)
          (Cache.lookup (loadChildCaches fs directory childDirPaths) k)) ∧
    (∀ k e, (k, e) ∈ loadChildCaches fs directory childDirPaths →
        ∃ c ∈ childDirPaths, ∃ rest cc,
          fs (directory ++ [cacheFileName (baseName c)]) = some cc ∧
          (rest, e) ∈ cc ∧ k = baseName c :: rest) :=
  ⟨fun _ => lookup_mergeChildInto, fun _ _ h => mem_loadChildCaches h⟩

/-- Witness for C4: recovering the single entry of `/r/a/.b_pgrid.json`
under the key `b/x.jpg`. -/
theorem child_cache_recovery_witness :
    (Cache.lookup (mergeChildInto [] (loadChildCaches childFS ["r", "a"] [["r", "a", "b"]]))
        ["b", "x.jpg"] =
      orElseO (Cache.lookup [] ["b", "x.jpg"])
        (Cache.lookup (loadChildCaches childFS ["r", "a"] [["r", "a", "b"]]) ["b", "x.jpg"])) ∧
    (∃ c ∈ [["r", "a", "b"]], ∃ rest cc,
        childFS (["r", "a"] ++ [cacheFileName (baseName c)]) = some cc ∧
        (rest, ({ fileSize := 100, mtime := 5, size := ⟨64, 48⟩ } : CacheEntry)) ∈ cc ∧
        (["b", "x.jpg"] : Key) = baseName c :: rest) :=
  ⟨(child_cache_recovery childFS ["r", "a"] [["r", "a", "b"]] []).1 ["b", "x.jpg"],
   (child_cache_recovery childFS ["r", "a"] [["r", "a", "b"]] []).2 ["b", "x.jpg"]
     { fileSize := 100, mtime := 5, size := ⟨64, 48⟩ } (by decide)⟩

/-! ## Idempotence of the per-directory reconciliation -/

theorem orElseO_eq_none {a b : Option CacheEntry} (h : orElseO a b = none) : a = none := by
  cases a with
  | none => rfl
  | some v => cases h

theorem processFile_stat_fields (env : Env) (c : Cache) (f : MediaFile) :
    (processFile env c f).1.fileSize = (statVals env f.absolutePath).1 ∧
    (processFile env c f).1.mtime = (statVals env f.absolutePath).2 := by
  simp only [processFile]
  split
  · split
    · exact ⟨rfl, rfl⟩
    · exact ⟨rfl, rfl⟩
  · exact ⟨rfl, rfl⟩

theorem mem_reconciled_cache (env : Env) (fs : FS) (args : DirSpec) {k : Key} {e : CacheEntry}
    (h : (k, e) ∈ (updateMetadataCache env fs args).1.cache) : k ∈ liveKeys args :=
  (reconcile_keys env fs args).1 (lookup_isSome_iff.2 ⟨e, h⟩)

theorem mem_reconciled_lastAssoc (env : Env) (fs : FS) (args : DirSpec) {k : Key} {e : CacheEntry}
    (h : (k, e) ∈ (updateMetadataCache env fs args).1.cache) :
    lastAssoc (entriesOf env fs args) k = some e := by
  rw [updateMetadataCache_cache_eq] at h
  rcases mem_foldIns.1 h with h' | ⟨hc, hn⟩
  · exact h'
  · exfalso
    have hk : k ∈ liveKeys args := (mem_cleanedOf.1 hc).2
    have hs : (lastAssoc (entriesOf env fs args) k).isSome = true :=
      lastAssoc_isSome_iff.2 (by rw [entriesOf_keys]; exact hk)
    rw [hn] at hs
    cases hs

theorem mergeChildInto_structure {cc : Cache} :
    ∀ {old : Cache}, ∃ adds, mergeChildInto old cc = old ++ adds ∧
      ∀ p ∈ adds, Cache.lookup old p.1 = none := by
  induction cc with
  | nil =>
    intro old
    exact ⟨[], by simp [mergeChildInto], by simp⟩
  | cons kv cc ih =>
    intro old
    have hstep : mergeChildInto old (kv :: cc) =
        mergeChildInto (if Cache.hasKey old kv.1 then old else old ++ [kv]) cc := rfl
    by_cases hb : Cache.hasKey old kv.1 = true
    · obtain ⟨adds, ha, hp⟩ := @ih old
      exact ⟨adds, by rw [hstep, if_pos hb, ha], hp⟩
    · obtain ⟨adds, ha, hp⟩ := @ih (old ++ [kv])
      refine ⟨kv :: adds, ?_, ?_⟩
      · rw [hstep, if_neg hb, ha, List.append_assoc]
        rfl
      · intro p hpm
        rcases List.mem_cons.1 hpm with h | h
        · rw [h]
          rw [lookup_eq_none_iff]
          intro e he
          exact hb (hasKey_iff.2 ⟨e, he⟩)
        · have := hp p h
          exact orElseO_eq_none (lookup_append ▸ this)

theorem foldIns_eq_self {rs : List (Key × CacheEntry)} :
    ∀ {c : Cache},
      (∀ k v, (k, v) ∈ rs → Cache.hasKey c k = true ∧ ∀ e, (k, e) ∈ c → e = v) →
      foldIns c rs = c := by
  induction rs with
  | nil =>
    intro c _
    rfl
  | cons r rs ih =>
    intro c h
    have h0 := h r.1 r.2 (List.mem_cons_self _ _)
    have hstep : foldIns c (r :: rs) = foldIns (insertJS c r.1 r.2) rs := rfl
    rw [hstep, insertJS_eq_self h0.1 h0.2]
    exact ih (fun k v hm => h k v (List.mem_cons_of_mem _ hm))

theorem cleanedOf_of_reconciled (env : Env) (fs₁ fs₂ : FS) (args : DirSpec)
    (hread : fs₂ (cacheFilePath args.directory) = some (updateMetadataCache env fs₁ args).1.cache) :
    cleanedOf fs₂ args = (updateMetadataCache env fs₁ args).1.cache := by
  obtain ⟨adds, hadds, hnone⟩ :=
    @mergeChildInto_structure (loadChildCaches fs₂ args.directory args.childDirPaths)
      (updateMetadataCache env fs₁ args).1.cache
  unfold cleanedOf mergedOldCache
  rw [hread]
  simp only [Option.getD_some]
  rw [hadds, List.filter_append]
  have h1 : (updateMetadataCache env fs₁ args).1.cache.filter
      (fun kv => (liveKeys args).contains kv.1) = (updateMetadataCache env fs₁ args).1.cache := by
    rw [List.filter_eq_self]
    rintro ⟨k, e⟩ hm
    have hk : k ∈ liveKeys args := mem_reconciled_cache env fs₁ args hm
    simpa [List.contains, List.elem_iff] using hk
  have h2 : adds.filter (fun kv => (liveKeys args).contains kv.1) = [] := by
    rw [List.filter_eq_nil_iff]
    rintro ⟨k, e⟩ hm hcont
    have hk : k ∈ liveKeys args := by simpa [List.contains, List.elem_iff] using hcont
    have hsome : (Cache.lookup (updateMetadataCache env fs₁ args).1.cache k).isSome = true :=
      (reconcile_keys env fs₁ args).2 hk
    have hnon := hnone _ hm
    rw [hnon] at hsome
    cases hsome
  rw [h1, h2, List.append_nil]

theorem lookup_reconciled_nodup (env : Env) (fs : FS) (args : DirSpec)
    (hrel : (liveKeys args).Nodup) {f : MediaFile} (hf : f ∈ args.mediaFiles) :
    Cache.lookup (updateMetadataCache env fs args).1.cache f.relativePath =
      some (processFile env (cleanedOf fs args) f).1 := by
  have hmem : (f.relativePath, (processFile env (cleanedOf fs args) f).1) ∈ entriesOf env fs args := by
    unfold entriesOf
    exact List.mem_map.2 ⟨f, hf, rfl⟩
  have hnd : ((entriesOf env fs args).map (·.1)).Nodup := by
    rw [entriesOf_keys]
    exact hrel
  have hla := lastAssoc_eq_some_of_mem_nodup hnd hmem
  rw [updateMetadataCache_cache_eq]
  apply lookup_eq_some_of_unique
  · exact ⟨_, mem_foldIns.2 (Or.inl hla)⟩
  · intro e he
    rcases mem_foldIns.1 he with h | ⟨-, hn⟩
    · rw [hla] at h
      exact (Option.some.inj h).symm
    · rw [hla] at hn
      cases hn

theorem processFile_second_run (env : Env) (fs₁ fs₂ : FS) (args : DirSpec)
    (hrel : (liveKeys args).Nodup)
    (hread : fs₂ (cacheFilePath args.directory) = some (updateMetadataCache env fs₁ args).1.cache)
    {f : MediaFile} (hf : f ∈ args.mediaFiles) :
    processFile env (cleanedOf fs₂ args) f =
      ((processFile env (cleanedOf fs₁ args) f).1, false) := by
  have hclean := cleanedOf_of_reconciled env fs₁ fs₂ args hread
  have hlook := lookup_reconciled_nodup env fs₁ args hrel hf
  obtain ⟨h1, h2⟩ := processFile_stat_fields env (cleanedOf fs₁ args) f
  set v := (processFile env (cleanedOf fs₁ args) f).1 with hv
  rw [hclean]
  simp only [processFile, hlook]
  rw [if_pos ⟨h1, h2⟩, ← h1, ← h2]

theorem reconcile_idempotent (env : Env) (fs₁ fs₂ : FS) (args : DirSpec)
    (hrel : (liveKeys args).Nodup)
    (hread : fs₂ (cacheFilePath args.directory) = some (updateMetadataCache env fs₁ args).1.cache) :
    (updateMetadataCache env fs₂ args).1.cache = (updateMetadataCache env fs₁ args).1.cache ∧
    (updateMetadataCache env fs₂ args).1.newFilesCount = 0 := by
  have hclean := cleanedOf_of_reconciled env fs₁ fs₂ args hread
  constructor
  · rw [updateMetadataCache_cache_eq, hclean]
    apply foldIns_eq_self
    intro k v hkv
    unfold entriesOf at hkv
    obtain ⟨f, hf, hfe⟩ := List.mem_map.1 hkv
    have hk : f.relativePath = k := congrArg Prod.fst hfe
    have hv : (processFile env (cleanedOf fs₂ args) f).1 = v := congrArg Prod.snd hfe
    have hpf := processFile_second_run env fs₁ fs₂ args hrel hread hf
    have hw := lookup_reconciled_nodup env fs₁ args hrel hf
    have hvw : v = (processFile env (cleanedOf fs₁ args) f).1 := by
      rw [← hv, hpf]
    constructor
    · rw [hasKey_eq_lookup_isSome, ← hk, hw]
      rfl
    · intro e he
      have hla1 := mem_reconciled_lastAssoc env fs₁ args he
      have hla2 := mem_reconciled_lastAssoc env fs₁ args (lookup_mem (hk ▸ hw))
      rw [hla2] at hla1
      rw [hvw]
      exact (Option.some.inj hla1).symm
  · rw [updateMetadataCache_count_eq, List.length_eq_zero, List.filter_eq_nil_iff]
    intro f hf
    have hpf := processFile_second_run env fs₁ fs₂ args hrel hread hf
    rw [hpf]
    simp

/-! ## Pipeline step and fold lemmas -/

theorem runSteps_cons (env : Env) (rootDir : Key) (st : PipelineState) (d : DirSpec)
    (ds : List DirSpec) :
    runSteps env rootDir st (d :: ds) =
      ((runSteps env rootDir (processDirectoryStep env rootDir st d).1 ds).1,
       (processDirectoryStep env rootDir st d).2 ::
         (runSteps env rootDir (processDirectoryStep env rootDir st d).1 ds).2) := rfl

theorem step_fs_fun (env : Env) (rootDir : Key) (st : PipelineState) (d : DirSpec) :
    (processDirectoryStep env rootDir st d).1.fs =
      if d.mediaFiles.isEmpty then st.fs else (updateMetadataCache env st.fs d).2 := by
  by_cases hm : d.mediaFiles.isEmpty = true <;> simp [processDirectoryStep, hm]

theorem step_out_cache (env : Env) (rootDir : Key) (st : PipelineState) (d : DirSpec) :
    (processDirectoryStep env rootDir st d).2.cache =
      if d.mediaFiles.isEmpty then [] else (updateMetadataCache env st.fs d).1.cache := by
  by_cases hm : d.mediaFiles.isEmpty = true <;> simp [processDirectoryStep, hm]

theorem step_out_count (env : Env) (rootDir : Key) (st : PipelineState) (d : DirSpec) :
    (processDirectoryStep env rootDir st d).2.newFilesCount =
      if d.mediaFiles.isEmpty then 0 else (updateMetadataCache env st.fs d).1.newFilesCount := by
  by_cases hm : d.mediaFiles.isEmpty = true <;> simp [processDirectoryStep, hm]

theorem step_out_directory (env : Env) (rootDir : Key) (st : PipelineState) (d : DirSpec) :
    (processDirectoryStep env rootDir st d).2.directory = d.directory := by
  by_cases hm : d.mediaFiles.isEmpty = true <;> simp [processDirectoryStep, hm]

theorem step_out_children (env : Env) (rootDir : Key) (st : PipelineState) (d : DirSpec) :
    (processDirectoryStep env rootDir st d).2.childDirPaths = d.childDirPaths := by
  by_cases hm : d.mediaFiles.isEmpty = true <;> simp [processDirectoryStep, hm]

theorem step_out_birth (env : Env) (rootDir : Key) (st : PipelineState) (d : DirSpec) :
    (processDirectoryStep env rootDir st d).2.dirBirthtime =
      if d.mediaFiles.isEmpty then 0 else (env.birthOf d.directory).getD 0 := by
  by_cases hm : d.mediaFiles.isEmpty = true <;> simp [processDirectoryStep, hm]

theorem step_out_mosaic (env : Env) (rootDir : Key) (st : PipelineState) (d : DirSpec) :
    (processDirectoryStep env rootDir st d).2.mosaicWritten =
      if d.mediaFiles.isEmpty then false else processMediaFiles env d.mediaFiles := by
  by_cases hm : d.mediaFiles.isEmpty = true <;> simp [processDirectoryStep, hm]

theorem step_out_counted (env : Env) (rootDir : Key) (st : PipelineState) (d : DirSpec) :
    (processDirectoryStep env rootDir st d).2.pgridCounted =
      decide (0 < (getDirectoryInfo (processDirectoryStep env rootDir st d).2.cache).2) := by
  by_cases hm : d.mediaFiles.isEmpty = true <;> simp [processDirectoryStep, hm]

theorem step_out_indexEntries (env : Env) (rootDir : Key) (st : PipelineState) (d : DirSpec) :
    (processDirectoryStep env rootDir st d).2.indexEntries =
      ownIndexEntry rootDir d.directory (processDirectoryStep env rootDir st d).2.cache
          (processDirectoryStep env rootDir st d).2.dirBirthtime ++
        d.childDirPaths.flatMap (fun c => ((st.dirResults c).map (·.2)).getD []) := by
  by_cases hm : d.mediaFiles.isEmpty = true <;> simp [processDirectoryStep, hm]

theorem step_out_indexWritten (env : Env) (rootDir : Key) (st : PipelineState) (d : DirSpec) :
    (processDirectoryStep env rootDir st d).2.indexWritten =
      decide ((processDirectoryStep env rootDir st d).2.indexEntries ≠ []) := by
  by_cases hm : d.mediaFiles.isEmpty = true <;> simp [processDirectoryStep, hm]

theorem step_dirResults (env : Env) (rootDir : Key) (st : PipelineState) (d : DirSpec) (q : Key) :
    (processDirectoryStep env rootDir st d).1.dirResults q =
      if q = d.directory then
        some ((processDirectoryStep env rootDir st d).2.cache,
          (processDirectoryStep env rootDir st d).2.indexEntries)
      else st.dirResults q := by
  by_cases hm : d.mediaFiles.isEmpty = true <;>
    by_cases hq : q = d.directory <;> simp [processDirectoryStep, hm, hq]

theorem runSteps_fs_preserve (env : Env) (rootDir : Key) :
    ∀ (ds : List DirSpec) (st : PipelineState) (q : Key),
      (∀ s ∈ ds, cacheFilePath s.directory ≠ q) →
      (runSteps env rootDir st ds).1.fs q = st.fs q := by
  intro ds
  induction ds with
  | nil =>
    intro st q _
    rfl
  | cons a ds ih =>
    intro st q h
    rw [runSteps_cons]
    rw [ih _ q (fun s hs => h s (List.mem_cons_of_mem _ hs))]
    rw [step_fs_fun]
    by_cases hm : a.mediaFiles.isEmpty = true
    · rw [if_pos hm]
    · rw [if_neg hm, updateMetadataCache_fs_eq,
        if_neg (fun hq => h a (List.mem_cons_self _ _) hq.symm)]

theorem runSteps_written (env : Env) (rootDir : Key) :
    ∀ (ds : List DirSpec) (st : PipelineState),
      ((ds.map (fun s => cacheFilePath s.directory)).Nodup) →
      ∀ d ∈ ds, d.mediaFiles.isEmpty = false →
        ∃ fsMid, (runSteps env rootDir st ds).1.fs (cacheFilePath d.directory) =
          some (updateMetadataCache env fsMid d).1.cache := by
  intro ds
  induction ds with
  | nil =>
    intro st _ d hd
    cases hd
  | cons a ds ih =>
    intro st hdist d hd hne
    rw [runSteps_cons]
    obtain ⟨hhead, htail⟩ := List.nodup_cons.1 hdist
    rcases List.mem_cons.1 hd with h | h
    · subst h
      refine ⟨st.fs, ?_⟩
      rw [runSteps_fs_preserve env rootDir ds _ _
        (fun s hs hp => hhead (List.mem_map.2 ⟨s, hs, hp⟩))]
      rw [step_fs_fun, if_neg (by rw [hne]; exact Bool.false_ne_true),
        updateMetadataCache_fs_eq, if_pos rfl]
    · exact ih _ htail d h hne

theorem runSteps_fixed (env : Env) (rootDir : Key) :
    ∀ (ds : List DirSpec) (st : PipelineState),
      (∀ d ∈ ds, d.mediaFiles.isEmpty = true ∨
        ((updateMetadataCache env st.fs d).1.newFilesCount = 0 ∧
         (updateMetadataCache env st.fs d).2 = st.fs)) →
      (runSteps env rootDir st ds).1.fs = st.fs ∧
      ∀ o ∈ (runSteps env rootDir st ds).2, o.newFilesCount = 0 := by
  intro ds
  induction ds with
  | nil =>
    intro st _
    exact ⟨rfl, by intro o ho; cases ho⟩
  | cons a ds ih =>
    intro st hfix
    have ha := hfix a (List.mem_cons_self _ _)
    have hfsstep : (processDirectoryStep env rootDir st a).1.fs = st.fs := by
      rw [step_fs_fun]
      rcases ha with hm | ⟨-, hw⟩
      · rw [if_pos hm]
      · by_cases hm : a.mediaFiles.isEmpty = true
        · rw [if_pos hm]
        · rw [if_neg hm]
          exact hw
    have hcount : (processDirectoryStep env rootDir st a).2.newFilesCount = 0 := by
      rw [step_out_count]
      rcases ha with hm | ⟨hc, -⟩
      · rw [if_pos hm]
      · by_cases hm : a.mediaFiles.isEmpty = true
        · rw [if_pos hm]
        · rw [if_neg hm]
          exact hc
    have htail := ih (processDirectoryStep env rootDir st a).1 (by
      rw [hfsstep]
      exact fun d hd => hfix d (List.mem_cons_of_mem _ hd))
    rw [runSteps_cons]
    refine ⟨by rw [htail.1, hfsstep], ?_⟩
    intro o ho
    rcases List.mem_cons.1 ho with h | h
    · rw [h]
      exact hcount
    · exact htail.2 o h

/-! ## Injectivity of the cache sidecar path -/

theorem string_data_inj {s t : String} (h : s.data = t.data) : s = t := by
  cases s
  cases t
  exact congrArg String.mk h

theorem cacheFileName_inj {a b : String} (h : cacheFileName a = cacheFileName b) : a = b := by
  unfold cacheFileName at h
  have hd := congrArg String.data h
  simp only [String.data_append] at hd
  have h2 : a.data = b.data := by simpa using hd
  exact string_data_inj h2

theorem baseName_of_ne_nil {l : Key} (hl : l ≠ []) : baseName l = l.getLast hl := by
  unfold baseName
  rw [List.getLast?_eq_getLast _ hl]
  rfl

theorem cacheFilePath_inj {d d' : Key} (hd : d ≠ []) (hd' : d' ≠ [])
    (h : cacheFilePath d = cacheFilePath d') : d = d' := by
  unfold cacheFilePath at h
  obtain ⟨h1, h2⟩ := List.append_inj' h rfl
  have hb : baseName d = baseName d' := cacheFileName_inj (by simpa using h2)
  calc d = d.dropLast ++ [d.getLast hd] := (List.dropLast_append_getLast hd).symm
    _ = d'.dropLast ++ [d'.getLast hd'] := by
        rw [← baseName_of_ne_nil hd, ← baseName_of_ne_nil hd', h1, hb]
    _ = d' := List.dropLast_append_getLast hd'

/-! ## C3: whole-pipeline idempotence -/

theorem update_write_noop (env : Env) (fs₁ : FS) (d : DirSpec) {cmid : Cache}
    (hread : fs₁ (cacheFilePath d.directory) = some cmid)
    (hcache : (updateMetadataCache env fs₁ d).1.cache = cmid) :
    (updateMetadataCache env fs₁ d).2 = fs₁ := by
  funext q
  rw [updateMetadataCache_fs_eq]
  by_cases hq : q = cacheFilePath d.directory
  · rw [if_pos hq, hcache, hq, hread]
  · rw [if_neg hq]

/-- C3: running `processAllDirectories` a second time over the same scan
result and oracle environment (an unchanged tree; first-run artifacts are
excluded from scans by the `_pgrid.jpg` / non-media filters) leaves every
cache sidecar file untouched — so serialized cache files are byte-identical
— and every directory's second-run new-file count is zero. -/
theorem pipeline_idempotent (env : Env) (rootDir : Key) (specs : List DirSpec) (fs₀ : FS)
    (hne : ∀ s ∈ specs, s.directory ≠ [])
    (hnodup : (specs.map (·.directory)).Nodup)
    (hrel : ∀ s ∈ specs, (s.mediaFiles.map (·.relativePath)).Nodup) :
    (processAllDirectories env rootDir specs
        (processAllDirectories env rootDir specs fs₀).1.fs).1.fs =
      (processAllDirectories env rootDir specs fs₀).1.fs ∧
    (∀ p, ((processAllDirectories env rootDir specs
        (processAllDirectories env rootDir specs fs₀).1.fs).1.fs p).map serializeCache =
      ((processAllDirectories env rootDir specs fs₀).1.fs p).map serializeCache) ∧
    (∀ o ∈ (processAllDirectories env rootDir specs
        (processAllDirectories env rootDir specs fs₀).1.fs).2, o.newFilesCount = 0) := by
  have hperm : (sortSpecs specs).Perm specs := List.perm_insertionSort _ specs
  have hsub : ∀ s ∈ sortSpecs specs, s ∈ specs := fun s hs => hperm.mem_iff.1 hs
  have hdirs : ((sortSpecs specs).map (·.directory)).Nodup :=
    (hperm.map (·.directory)).nodup_iff.2 hnodup
  have hpaths : ((sortSpecs specs).map (fun s => cacheFilePath s.directory)).Nodup := by
    have hmm : (sortSpecs specs).map (fun s => cacheFilePath s.directory) =
        ((sortSpecs specs).map (·.directory)).map cacheFilePath := by
      rw [List.map_map]
      rfl
    rw [hmm]
    refine List.Nodup.map_on ?_ hdirs
    intro x hx y hy hxy
    obtain ⟨sx, hsx, hx'⟩ := List.mem_map.1 hx
    obtain ⟨sy, hsy, hy'⟩ := List.mem_map.1 hy
    exact cacheFilePath_inj (hx' ▸ hne sx (hsub sx hsx)) (hy' ▸ hne sy (hsub sy hsy)) hxy
  have hfix : ∀ d ∈ sortSpecs specs, d.mediaFiles.isEmpty = true ∨
      ((updateMetadataCache env (processAllDirectories env rootDir specs fs₀).1.fs d).1.newFilesCount = 0 ∧
       (updateMetadataCache env (processAllDirectories env rootDir specs fs₀).1.fs d).2 =
         (processAllDirectories env rootDir specs fs₀).1.fs) := by
    intro d hd
    by_cases hm : d.mediaFiles.isEmpty = true
    · exact Or.inl hm
    · right
      have hmf : d.mediaFiles.isEmpty = false := Bool.not_eq_true _ ▸ hm
      obtain ⟨fsMid, hwrit⟩ :=
        runSteps_written env rootDir (sortSpecs specs) (initState fs₀) hpaths d hd hmf
      have hreld : (liveKeys d).Nodup := hrel d (hsub d hd)
      have hidem := reconcile_idempotent env fsMid
        (processAllDirectories env rootDir specs fs₀).1.fs d hreld hwrit
      exact ⟨hidem.2, update_write_noop env _ d hwrit hidem.1⟩
  have hrun := runSteps_fixed env rootDir (sortSpecs specs)
    (initState (processAllDirectories env rootDir specs fs₀).1.fs) hfix
  refine ⟨hrun.1, ?_, hrun.2⟩
  intro p
  rw [show (processAllDirectories env rootDir specs
      (processAllDirectories env rootDir specs fs₀).1.fs).1.fs =
    (processAllDirectories env rootDir specs fs₀).1.fs from hrun.1]

/-- Witness for C3: the sample tree, run twice from an empty filesystem. -/
theorem pipeline_idempotent_witness :
    ((∀ s ∈ sampleSpecs, s.directory ≠ []) ∧
     (sampleSpecs.map (·.directory)).Nodup ∧
     (∀ s ∈ sampleSpecs, (s.mediaFiles.map (·.relativePath)).Nodup)) ∧
    ((processAllDirectories sampleEnv ["r"] sampleSpecs
        (processAllDirectories sampleEnv ["r"] sampleSpecs (fun _ => none)).1.fs).1.fs =
      (processAllDirectories sampleEnv ["r"] sampleSpecs (fun _ => none)).1.fs ∧
     (∀ p, ((processAllDirectories sampleEnv ["r"] sampleSpecs
        (processAllDirectories sampleEnv ["r"] sampleSpecs (fun _ => none)).1.fs).1.fs p).map
          serializeCache =
       ((processAllDirectories sampleEnv ["r"] sampleSpecs (fun _ => none)).1.fs p).map
          serializeCache) ∧
     (∀ o ∈ (processAllDirectories sampleEnv ["r"] sampleSpecs
        (processAllDirectories sampleEnv ["r"] sampleSpecs (fun _ => none)).1.fs).2,
        o.newFilesCount = 0)) :=
  ⟨⟨by decide, by decide, by decide⟩,
   pipeline_idempotent sampleEnv ["r"] sampleSpecs (fun _ => none)
     (by decide) (by decide) (by decide)⟩

/-! ## C5: deepest-first processing order -/

theorem runSteps_log_directories (env : Env) (rootDir : Key) :
    ∀ (ds : List DirSpec) (st : PipelineState),
      ((runSteps env rootDir st ds).2).map (·.directory) = ds.map (·.directory) := by
  intro ds
  induction ds with
  | nil =>
    intro st
    rfl
  | cons a ds ih =>
    intro st
    rw [runSteps_cons]
    simp only [List.map_cons]
    rw [step_out_directory, ih]

theorem sortSpecs_sorted (specs : List DirSpec) : (sortSpecs specs).Sorted specDepthLe :=
  List.sorted_insertionSort _ specs

/-- C5: the pipeline processes the scanned directories in the list sorted
by path-segment count descending, so for directories `A` and `B` both in
the scan with `B` a proper descendant of `A` (a strict path-prefix
extension), `B`'s loop iteration — which writes `B`'s cache and, when
non-empty, its index file — occurs at a strictly earlier position of the
outcome log than `A`'s. -/
theorem deepest_first_order (env : Env) (rootDir : Key) (specs : List DirSpec) (fs₀ : FS)
    (A B : Key)
    (hA : A ∈ specs.map (·.directory)) (hB : B ∈ specs.map (·.directory))
    (hAB : A <+: B) (hne : A ≠ B) :
    ((processAllDirectories env rootDir specs fs₀).2.map (·.directory) =
      (sortSpecs specs).map (·.directory)) ∧
    (B ∈ (processAllDirectories env rootDir specs fs₀).2.map (·.directory)) ∧
    (A ∈ (processAllDirectories env rootDir specs fs₀).2.map (·.directory)) ∧
    (∀ i j : Fin ((processAllDirectories env rootDir specs fs₀).2.map (·.directory)).length,
      ((processAllDirectories env rootDir specs fs₀).2.map (·.directory)).get i = B →
      ((processAllDirectories env rootDir specs fs₀).2.map (·.directory)).get j = A →
      i < j) := by
  have hlog : (processAllDirectories env rootDir specs fs₀).2.map (·.directory) =
      (sortSpecs specs).map (·.directory) := runSteps_log_directories env rootDir _ _
  have hperm : ((sortSpecs specs).map (·.directory)).Perm (specs.map (·.directory)) :=
    (List.perm_insertionSort _ specs).map _
  have hA' : A ∈ (sortSpecs specs).map (·.directory) := hperm.mem_iff.2 hA
  have hB' : B ∈ (sortSpecs specs).map (·.directory) := hperm.mem_iff.2 hB
  have hsorted : ((processAllDirectories env rootDir specs fs₀).2.map (·.directory)).Pairwise
      (fun a b : Key => b.length ≤ a.length) := by
    rw [hlog, List.pairwise_map]
    exact sortSpecs_sorted specs
  have hlen : A.length < B.length := by
    rcases Nat.lt_or_ge A.length B.length with h | h
    · exact h
    · exact absurd (List.IsPrefix.eq_of_length_le hAB h) hne
  refine ⟨hlog, by rw [hlog]; exact hB', by rw [hlog]; exact hA', ?_⟩
  intro i j hi hj
  rcases Nat.lt_trichotomy i.1 j.1 with h | h | h
  · exact h
  · exfalso
    apply hne
    rw [← hj, ← hi]
    congr 1
    exact (Fin.ext h).symm
  · exfalso
    have hrel := List.Sorted.rel_get_of_lt hsorted (show j < i from h)
    rw [hi, hj] at hrel
    exact absurd (Nat.lt_of_lt_of_le hlen hrel) (Nat.lt_irrefl _)

/-- Witness for C5: in the sample tree, `/r/a` is processed before `/r`. -/
theorem deepest_first_order_witness :
    ((["r"] : Key) ∈ sampleSpecs.map (·.directory) ∧
     (["r", "a"] : Key) ∈ sampleSpecs.map (·.directory) ∧
     (["r"] : Key) <+: ["r", "a"] ∧ (["r"] : Key) ≠ ["r", "a"]) ∧
    (((processAllDirectories sampleEnv ["r"] sampleSpecs (fun _ => none)).2.map (·.directory) =
        (sortSpecs sampleSpecs).map (·.directory)) ∧
     ((["r", "a"] : Key) ∈ (processAllDirectories sampleEnv ["r"] sampleSpecs
        (fun _ => none)).2.map (·.directory)) ∧
     ((["r"] : Key) ∈ (processAllDirectories sampleEnv ["r"] sampleSpecs
        (fun _ => none)).2.map (·.directory)) ∧
     (∀ i j : Fin ((processAllDirectories sampleEnv ["r"] sampleSpecs
          (fun _ => none)).2.map (·.directory)).length,
        ((processAllDirectories sampleEnv ["r"] sampleSpecs
          (fun _ => none)).2.map (·.directory)).get i = ["r", "a"] →
        ((processAllDirectories sampleEnv ["r"] sampleSpecs
          (fun _ => none)).2.map (·.directory)).get j = ["r"] →
        i < j)) :=
  ⟨⟨by decide, by decide, ⟨["a"], by decide⟩, by decide⟩,
   deepest_first_order sampleEnv ["r"] sampleSpecs (fun _ => none) ["r"] ["r", "a"]
     (by decide) (by decide) ⟨["a"], by decide⟩ (by decide)⟩

/-! ## C6: each directory's index list is its own entry plus its immediate
children's already-computed lists -/

theorem runSteps_index_spec (env : Env) (rootDir : Key) :
    ∀ (ds : List DirSpec) (st : PipelineState) (pre : List DirOutcome),
      (∀ c, st.dirResults c =
        ((pre.find? (fun o => o.directory == c)).map (fun o => (o.cache, o.indexEntries)))) →
      ((pre.map (·.directory) ++ ds.map (·.directory)).Nodup) →
      ∀ preLog out postLog,
        (runSteps env rootDir st ds).2 = preLog ++ out :: postLog →
        (out.indexEntries =
          ownIndexEntry rootDir out.directory out.cache out.dirBirthtime ++
            out.childDirPaths.flatMap (fun c =>
              (((pre ++ preLog).find? (fun o => o.directory == c)).map
                (fun o => o.indexEntries)).getD [])) ∧
        (out.indexWritten = true ↔ out.indexEntries ≠ []) := by
  intro ds
  induction ds with
  | nil =>
    intro st pre _ _ preLog out postLog hsplit
    exact absurd hsplit (by simp [runSteps])
  | cons d ds ih =>
    intro st pre hG hnd preLog out postLog hsplit
    have hout_dir : (processDirectoryStep env rootDir st d).2.directory = d.directory :=
      step_out_directory env rootDir st d
    have hddir : d.directory ∉ pre.map (·.directory) := by
      intro hmem
      have hdisj := List.disjoint_of_nodup_append hnd
      exact hdisj hmem (List.mem_cons_self _ _)
    rw [runSteps_cons] at hsplit
    cases preLog with
    | nil =>
      simp only [List.nil_append] at hsplit
      injection hsplit with h1 h2
      subst h1
      constructor
      · rw [step_out_indexEntries, hout_dir, step_out_children, List.append_nil]
        have hfun : (fun c : Key => ((st.dirResults c).map (·.2)).getD []) =
            (fun c : Key => ((pre.find? (fun o : DirOutcome => o.directory == c)).map
              (fun o => o.indexEntries)).getD []) := by
          funext c
          rw [hG c]
          cases pre.find? (fun o => o.directory == c) <;> rfl
        rw [hfun]
      · rw [step_out_indexWritten]
        simp
    | cons o preLog' =>
      injection hsplit with h1 h2
      have hG' : ∀ c, (processDirectoryStep env rootDir st d).1.dirResults c =
          (((pre ++ [(processDirectoryStep env rootDir st d).2]).find?
              (fun o => o.directory == c)).map (fun o => (o.cache, o.indexEntries))) := by
        intro c
        rw [step_dirResults, List.find?_append]
        by_cases hc : c = d.directory
        · rw [if_pos hc]
          have hpre : pre.find? (fun o => o.directory == c) = none := by
            rw [List.find?_eq_none]
            intro o' ho' hbeq
            have hoc : o'.directory = c := by simpa using hbeq
            exact hddir (hc ▸ hoc ▸ List.mem_map.2 ⟨o', ho', rfl⟩)
          have hone : ([(processDirectoryStep env rootDir st d).2].find?
              (fun o => o.directory == c)) = some (processDirectoryStep env rootDir st d).2 := by
            rw [List.find?_cons_of_pos]
            simp [hout_dir, hc]
          rw [hpre, hone]
          rfl
        · rw [if_neg hc, hG c]
          have hone : ([(processDirectoryStep env rootDir st d).2].find?
              (fun o => o.directory == c)) = none := by
            rw [List.find?_eq_none]
            intro o' ho' hbeq
            have hoc : o'.directory = c := by simpa using hbeq
            rcases List.mem_singleton.1 ho' with rfl
            exact hc (hoc ▸ hout_dir ▸ rfl)
          rw [hone]
          cases pre.find? (fun o => o.directory == c) <;> rfl
      have hnd' : ((pre ++ [(processDirectoryStep env rootDir st d).2]).map (·.directory) ++
          ds.map (·.directory)).Nodup := by
        rw [List.map_append]
        simp only [List.map_cons, List.map_nil, hout_dir]
        rw [List.append_assoc]
        simpa using hnd
      have IH := ih (processDirectoryStep env rootDir st d).1
        (pre ++ [(processDirectoryStep env rootDir st d).2]) hG' hnd' preLog' out postLog h2
      rw [← h1]
      rw [show pre ++ ((processDirectoryStep env rootDir st d).2 :: preLog') =
        (pre ++ [(processDirectoryStep env rootDir st d).2]) ++ preLog' from by simp]
      exact IH

/-- C6: for every scanned directory — every outcome `out` of the pipeline's
log, split as `preLog ++ out :: postLog` — the index-entry list held for
(and, when non-empty, written to) that directory's index file is exactly
its own entry, included iff its reconciled cache has entry count greater
than zero (`ownIndexEntry`), concatenated with the already-computed entry
lists of its immediate subdirectories looked up among the outcomes
processed before it (`preLog`); and the index file is persisted exactly
when this combined list is non-empty. -/
theorem directory_index_union (env : Env) (rootDir : Key) (specs : List DirSpec) (fs₀ : FS)
    (hnodup : (specs.map (·.directory)).Nodup) :
    ∀ preLog out postLog,
      (processAllDirectories env rootDir specs fs₀).2 = preLog ++ out :: postLog →
      (out.indexEntries =
        ownIndexEntry rootDir out.directory out.cache out.dirBirthtime ++
          out.childDirPaths.flatMap (fun c =>
            ((preLog.find? (fun o => o.directory == c)).map (fun o => o.indexEntries)).getD [])) ∧
      (out.indexWritten = true ↔ out.indexEntries ≠ []) := by
  intro preLog out postLog hsplit
  have hnd : (([] : List DirOutcome).map (·.directory) ++
      (sortSpecs specs).map (·.directory)).Nodup := by
    simpa using ((List.perm_insertionSort _ specs).map (·.directory)).nodup_iff.2 hnodup
  have h := runSteps_index_spec env rootDir (sortSpecs specs) (initState fs₀) []
    (fun _ => rfl) hnd preLog out postLog hsplit
  simpa using h

/-- Witness for C6: the outcome of `/r/a` in the sample run (its index list
is its own entry plus its child `/r/a/b`'s already-computed list). -/
theorem directory_index_union_witness :
    ((sampleSpecs.map (·.directory)).Nodup ∧
     sampleRun.2 = sampleRun.2.take 1 ++ sampleRun.2.get ⟨1, by decide⟩ :: sampleRun.2.drop 2) ∧
    ((sampleRun.2.get ⟨1, by decide⟩).indexEntries =
      ownIndexEntry ["r"] (sampleRun.2.get ⟨1, by decide⟩).directory
          (sampleRun.2.get ⟨1, by decide⟩).cache
          (sampleRun.2.get ⟨1, by decide⟩).dirBirthtime ++
        (sampleRun.2.get ⟨1, by decide⟩).childDirPaths.flatMap
          (fun c => (((sampleRun.2.take 1).find?
              (fun o => o.directory == c)).map (fun o => o.indexEntries)).getD [])) ∧
    ((sampleRun.2.get ⟨1, by decide⟩).indexWritten = true ↔
      (sampleRun.2.get ⟨1, by decide⟩).indexEntries ≠ []) :=
  ⟨⟨by decide, by decide⟩,
   (directory_index_union sampleEnv ["r"] sampleSpecs (fun _ => none) (by decide)
     (sampleRun.2.take 1) (sampleRun.2.get ⟨1, by decide⟩) (sampleRun.2.drop 2) (by decide)).1,
   (directory_index_union sampleEnv ["r"] sampleSpecs (fun _ => none) (by decide)
     (sampleRun.2.take 1) (sampleRun.2.get ⟨1, by decide⟩) (sampleRun.2.drop 2) (by decide)).2⟩

/-! ## C7: index entry paths are root-relative, propagated unchanged -/

theorem mem_ownIndexEntry_path {rootDir directory : Key} {cache : Cache} {b : Int}
    {e : DirectoryIndexEntry} (h : e ∈ ownIndexEntry rootDir directory cache b) :
    e.path = indexPathOf rootDir directory := by
  unfold ownIndexEntry at h
  split at h
  · rcases List.mem_singleton.1 h with rfl
    rfl
  · cases h

/-- Counterexample for C7: in the sample run, the index file written for
`/r/a` (a non-root directory) contains the entry for `/r/a/b` with path
`a/b` — the path relative to the scan root — not `b`, the path relative to
`/r/a` itself; the entry was passed up unchanged from the child's turn. -/
theorem index_paths_not_dir_relative_counterexample :
    (sampleRun.2.get ⟨1, by decide⟩).directory = ["r", "a"] ∧
    (sampleRun.2.get ⟨1, by decide⟩).indexWritten = true ∧
    (sampleRun.2.get ⟨1, by decide⟩).indexEntries.map (fun e => e.path) = [["a"], ["a", "b"]] ∧
    relSegs ["r", "a"] ["r", "a", "b"] = ["b"] ∧
    (["a", "b"] : Key) ≠ ["b"] := by decide

theorem runSteps_entries_own (env : Env) (rootDir : Key) :
    ∀ (ds : List DirSpec) (st : PipelineState) (pre : List DirOutcome),
      (∀ c r, st.dirResults c = some r → ∀ e ∈ r.2, ∃ o ∈ pre,
        e ∈ ownIndexEntry rootDir o.directory o.cache o.dirBirthtime) →
      ∀ out ∈ (runSteps env rootDir st ds).2, ∀ e ∈ out.indexEntries,
        ∃ o ∈ pre ++ (runSteps env rootDir st ds).2,
          e ∈ ownIndexEntry rootDir o.directory o.cache o.dirBirthtime := by
  intro ds
  induction ds with
  | nil =>
    intro st pre _ out hout
    cases hout
  | cons d ds ih =>
    intro st pre hInv out hout e he
    have hout_dir : (processDirectoryStep env rootDir st d).2.directory = d.directory :=
      step_out_directory env rootDir st d
    have hhead : ∀ e' ∈ (processDirectoryStep env rootDir st d).2.indexEntries,
        ∃ o ∈ pre ++ [(processDirectoryStep env rootDir st d).2],
          e' ∈ ownIndexEntry rootDir o.directory o.cache o.dirBirthtime := by
      intro e' he'
      rw [step_out_indexEntries] at he'
      rcases List.mem_append.1 he' with h | h
      · refine ⟨(processDirectoryStep env rootDir st d).2,
          List.mem_append.2 (Or.inr (List.mem_singleton.2 rfl)), ?_⟩
        rw [hout_dir]
        exact h
      · rcases List.mem_flatMap.1 h with ⟨c, hc, he''⟩
        cases hres : st.dirResults c with
        | none =>
          rw [hres] at he''
          simp at he''
        | some r =>
          rw [hres] at he''
          obtain ⟨o, ho, hoe⟩ := hInv c r hres e' (by simpa using he'')
          exact ⟨o, List.mem_append.2 (Or.inl ho), hoe⟩
    rw [runSteps_cons] at hout
    rcases List.mem_cons.1 hout with rfl | hout'
    · obtain ⟨o, ho, hoe⟩ := hhead e he
      refine ⟨o, ?_, hoe⟩
      rw [runSteps_cons]
      rcases List.mem_append.1 ho with h | h
      · exact List.mem_append.2 (Or.inl h)
      · rcases List.mem_singleton.1 h with rfl
        exact List.mem_append.2 (Or.inr (List.mem_cons_self _ _))
    · have hInv' : ∀ c r, (processDirectoryStep env rootDir st d).1.dirResults c = some r →
          ∀ e' ∈ r.2, ∃ o ∈ pre ++ [(processDirectoryStep env rootDir st d).2],
            e' ∈ ownIndexEntry rootDir o.directory o.cache o.dirBirthtime := by
        intro c r hres e' he'
        rw [step_dirResults] at hres
        by_cases hc : c = d.directory
        · rw [if_pos hc] at hres
          have hr : r = ((processDirectoryStep env rootDir st d).2.cache,
              (processDirectoryStep env rootDir st d).2.indexEntries) :=
            (Option.some.inj hres).symm
          apply hhead e'
          rw [hr] at he'
          exact he'
        · rw [if_neg hc] at hres
          obtain ⟨o, ho, hoe⟩ := hInv c r hres e' he'
          exact ⟨o, List.mem_append.2 (Or.inl ho), hoe⟩
      obtain ⟨o, ho, hoe⟩ := ih (processDirectoryStep env rootDir st d).1
        (pre ++ [(processDirectoryStep env rootDir st d).2]) hInv' out hout' e he
      refine ⟨o, ?_, hoe⟩
      rw [runSteps_cons]
      rcases List.mem_append.1 ho with h | h
      · rcases List.mem_append.1 h with h' | h'
        · exact List.mem_append.2 (Or.inl h')
        · rcases List.mem_singleton.1 h' with rfl
          exact List.mem_append.2 (Or.inr (List.mem_cons_self _ _))
      · exact List.mem_append.2 (Or.inr (List.mem_cons_of_mem _ h))

/-- C7 amended: every entry appearing in any directory's index-entry list
is the own-entry of some processed directory, created once at that
directory's own loop iteration with its path computed relative to the scan
*root* (`indexPathOf rootDir`), and then propagated into ancestors' index
lists unchanged — in particular the root's index file lists root-relative
paths, but a non-root directory's index file also stores root-relative
(not directory-relative) paths. -/
theorem index_paths_root_relative (env : Env) (rootDir : Key) (specs : List DirSpec) (fs₀ : FS) :
    ∀ out ∈ (processAllDirectories env rootDir specs fs₀).2,
      ∀ e ∈ out.indexEntries,
        ∃ o ∈ (processAllDirectories env rootDir specs fs₀).2,
          e ∈ ownIndexEntry rootDir o.directory o.cache o.dirBirthtime ∧
          e.path = indexPathOf rootDir o.directory := by
  intro out hout e he
  obtain ⟨o, ho, hoe⟩ := runSteps_entries_own env rootDir (sortSpecs specs) (initState fs₀) []
    (fun c r hres => by cases hres) out hout e he
  exact ⟨o, by simpa using ho, hoe, mem_ownIndexEntry_path hoe⟩

/-- Witness for C7 amended: the entry with path `a/b` inside `/r/a`'s index
list originates from `/r/a/b`'s own turn, root-relative. -/
theorem index_paths_root_relative_witness :
    (sampleRun.2.get ⟨1, by decide⟩) ∈ sampleRun.2 ∧
    (sampleRun.2.get ⟨1, by decide⟩).indexEntries.get ⟨1, by decide⟩ ∈
      (sampleRun.2.get ⟨1, by decide⟩).indexEntries ∧
    (∃ o ∈ sampleRun.2,
      (sampleRun.2.get ⟨1, by decide⟩).indexEntries.get ⟨1, by decide⟩ ∈
        ownIndexEntry ["r"] o.directory o.cache o.dirBirthtime ∧
      ((sampleRun.2.get ⟨1, by decide⟩).indexEntries.get ⟨1, by decide⟩).path =
        indexPathOf ["r"] o.directory) :=
  ⟨by decide, by decide,
   index_paths_root_relative sampleEnv ["r"] sampleSpecs (fun _ => none)
     (sampleRun.2.get ⟨1, by decide⟩) (by decide)
     ((sampleRun.2.get ⟨1, by decide⟩).indexEntries.get ⟨1, by decide⟩) (by decide)⟩

/-! ## C8: mosaic skip versus the mosaics-generated counter -/

theorem getDirectoryInfo_count (c : Cache) : (getDirectoryInfo c).2 = c.length := by
  suffices h : ∀ acc : Int × Nat,
      (c.foldl (fun acc kv => (if kv.2.mtime > acc.1 then kv.2.mtime else acc.1, acc.2 + 1)) acc).2 =
        acc.2 + c.length by
    simpa using h (0, 0)
  induction c with
  | nil =>
    intro acc
    simp
  | cons kv c ih =>
    intro acc
    rw [List.foldl_cons, ih]
    simp only [List.length_cons]
    omega

theorem processMediaFiles_all_fail (env : Env) (mediaFiles : List MediaFile)
    (hfail : ∀ f ∈ mediaFiles, env.cellOk f.absolutePath = false)
    (hshuf : ∀ f ∈ env.shuffleOf mediaFiles, f ∈ mediaFiles) :
    processMediaFiles env mediaFiles = false := by
  unfold processMediaFiles
  have hfilter : ((env.shuffleOf mediaFiles).take totalCells).filter
      (fun f => env.cellOk f.absolutePath) = [] := by
    rw [List.filter_eq_nil_iff]
    intro f hf
    rw [hfail f (hshuf f (List.take_subset _ _ hf))]
    simp
  simp [hfilter]

/-- Counterexample for C8: a directory containing one media file whose
every decode/composite attempt fails produces no mosaic
(`mosaicWritten = false`) — yet the `pgridsGenerated` counter *is*
incremented for it, because the counter tests the reconciled cache's entry
count (the failed file still gets a `0×0` cache entry), not whether a
mosaic was actually written. -/
theorem mosaic_counter_counterexample :
    failEnv.cellOk ["r", "m", "v.mp4"] = false ∧
    failEnv.probeOf ["r", "m", "v.mp4"] = none ∧
    (processDirectoryStep failEnv ["r"] (initState (fun _ => none)) failSpec).2.mosaicWritten
      = false ∧
    (processDirectoryStep failEnv ["r"] (initState (fun _ => none)) failSpec).2.pgridCounted
      = true ∧
    (processDirectoryStep failEnv ["r"] (initState (fun _ => none)) failSpec).1.pgridsGenerated
      = 1 := by decide

/-- C8 amended: when every media file of a directory fails to
decode/composite, no mosaic is written; but the mosaics-generated counter
is incremented iff the directory's reconciled cache is non-empty — which
holds whenever the directory has at least one live media file, even if
zero cells composited — rather than iff a mosaic file was written. -/
theorem mosaic_skip_amended (env : Env) (rootDir : Key) (st : PipelineState) (d : DirSpec)
    (hfail : ∀ f ∈ d.mediaFiles, env.cellOk f.absolutePath = false)
    (hshuf : ∀ f ∈ env.shuffleOf d.mediaFiles, f ∈ d.mediaFiles) :
    (processDirectoryStep env rootDir st d).2.mosaicWritten = false ∧
    ((processDirectoryStep env rootDir st d).2.pgridCounted = true ↔
      (processDirectoryStep env rootDir st d).2.cache ≠ []) := by
  constructor
  · rw [step_out_mosaic]
    by_cases hm : d.mediaFiles.isEmpty = true
    · rw [if_pos hm]
    · rw [if_neg hm]
      exact processMediaFiles_all_fail env d.mediaFiles hfail hshuf
  · rw [step_out_counted, getDirectoryInfo_count]
    simp [List.length_pos]

/-- Witness for C8 amended: the all-fail directory from the counterexample. -/
theorem mosaic_skip_amended_witness :
    ((∀ f ∈ failSpec.mediaFiles, failEnv.cellOk f.absolutePath = false) ∧
     (∀ f ∈ failEnv.shuffleOf failSpec.mediaFiles, f ∈ failSpec.mediaFiles)) ∧
    ((processDirectoryStep failEnv ["r"] (initState (fun _ => none)) failSpec).2.mosaicWritten
       = false ∧
     ((processDirectoryStep failEnv ["r"] (initState (fun _ => none)) failSpec).2.pgridCounted
        = true ↔
      (processDirectoryStep failEnv ["r"] (initState (fun _ => none)) failSpec).2.cache ≠ [])) :=
  ⟨⟨by decide, by decide⟩,
   mosaic_skip_amended failEnv ["r"] (initState (fun _ => none)) failSpec
     (by decide) (by decide)⟩

/-! ## C9: video thumbnail error handling and temp-file cleanup -/

/-- Counterexample for C9: if `Deno.makeTempFile` throws after
`Deno.makeTempDir` succeeded, `temporaryFile` propagates before
`tmpPath`/`tmpDir` are assigned, so the `finally` block removes nothing:
the created temporary directory leaks on that exit path (the call still
returns `null` rather than raising). -/
theorem video_cleanup_counterexample :
    getVideoThumbnail (⟨true, false, true, true, true, true⟩ : VideoEnv) =
      ({ result := none, dirCreated := true, fileCreated := false,
         dirRemoved := false, fileRemoved := false } : VideoOutcome) := by decide

/-- C9 amended: `getVideoThumbnail` never lets an exception escape — it
returns an image handle iff every step succeeded and `null` on any failure
— and whenever the temporary file was successfully created (so
`tmpPath`/`tmpDir` were assigned), both the temp file and its directory
are removed on every exit path; only the exit path where temp-file
creation itself fails after the temp directory was created leaks the
directory. -/
theorem video_thumbnail_amended (env : VideoEnv) :
    ((getVideoThumbnail env).result = some () ↔
      (env.mkTempDirOk = true ∧ env.mkTempFileOk = true ∧ env.probeOk = true ∧
       env.ffmpegOk = true ∧ env.readOk = true ∧ env.sharpOk = true)) ∧
    (env.mkTempDirOk = true → env.mkTempFileOk = true →
      (getVideoThumbnail env).fileRemoved = true ∧
      (getVideoThumbnail env).dirRemoved = true) := by
  obtain ⟨a, b, c, d, e, f⟩ := env
  cases a <;> cases b <;> cases c <;> cases d <;> cases e <;> cases f <;> decide

/-- Witness for C9 amended: the all-success environment removes both
temporary resources. -/
theorem video_thumbnail_amended_witness :
    ((getVideoThumbnail ⟨true, true, true, true, true, true⟩).fileRemoved = true ∧
     (getVideoThumbnail ⟨true, true, true, true, true, true⟩).dirRemoved = true) :=
  (video_thumbnail_amended ⟨true, true, true, true, true, true⟩).2 (by decide) (by decide)

/-! ## C10: path traversal validation and top-level abort -/

theorem validateAll_error (normalize : String → String) :
    ∀ (dirs : List String) (d : String), d ∈ dirs → strIncludes (normalize d) ".." = true →
      ∃ e, validateAll normalize dirs = Except.error e := by
  intro dirs
  induction dirs with
  | nil =>
    intro d hd
    cases hd
  | cons x xs ih =>
    intro d hd h
    rcases List.mem_cons.1 hd with rfl | hx
    · exact ⟨"Path traversal detected", by simp [validateAll, validatePath, h]⟩
    · cases hval : validatePath normalize x with
      | error e => exact ⟨e, by simp [validateAll, hval]⟩
      | ok v =>
        obtain ⟨e, he⟩ := ih d hx h
        exact ⟨e, by simp [validateAll, hval, he]⟩

/-- C10: `validatePath` throws `"Path traversal detected"` exactly when the
normalized path contains the substring `".."`, and returns the normalized
path otherwise; and since every processed directory (the scanned root
included) passes through `validatePath` with no intermediate catch, a root
whose normalized form contains `".."` makes the run abort at the top level
with exit code 1. -/
theorem validatePath_spec (normalize : String → String) (d : String) (dirs : List String) :
    (strIncludes (normalize d) ".." = true →
      validatePath normalize d = Except.error "Path traversal detected") ∧
    (strIncludes (normalize d) ".." = false →
      validatePath normalize d = Except.ok (normalize d)) ∧
    (d ∈ dirs → strIncludes (normalize d) ".." = true → mainExitCode normalize dirs = 1) := by
  refine ⟨?_, ?_, ?_⟩
  · intro h
    simp [validatePath, h]
  · intro h
    simp [validatePath, h]
  · intro hmem h
    obtain ⟨e, he⟩ := validateAll_error normalize dirs d hmem h
    simp [mainExitCode, he]

/-- Witness for C10: root argument `"../x"` (with the identity in place of
`path.normalize`, which leaves `"../x"` unchanged). -/
theorem validatePath_spec_witness :
    strIncludes ((fun s => s) "../x") ".." = true ∧ ("../x" : String) ∈ ["../x"] ∧
    validatePath (fun s => s) "../x" = Except.error "Path traversal detected" ∧
    mainExitCode (fun s => s) ["../x"] = 1 :=
  ⟨by decide, by decide,
   (validatePath_spec (fun s => s) "../x" ["../x"]).1 (by decide),
   (validatePath_spec (fun s => s) "../x" ["../x"]).2.2 (by decide) (by decide)⟩

end GridSpec
